import Mathlib

/-!
Verification development for the AICalc backend response-normalization
pipeline (`apps/calculator/utils.py` and `apps/calculator/route.py`).

The Python pipeline is shallowly embedded:

* `jsonLoads` embeds `json.loads` on the JSON fragment the pipeline deals in
  (double-quoted strings without escape sequences, integers and decimal
  fractions without exponents, `true`/`false`/`null`, arrays, objects with
  string keys, no trailing commas, `0`-prefixed numbers rejected).
* `astLiteralEval` embeds `ast.literal_eval` (Python >= 3.10, which strips
  leading whitespace) on the matching superset: additionally single-quoted
  strings, `True`/`False`/`None`, and a leading `+` sign.  Tuples, sets,
  bytes, underscores in numbers, escape sequences and exponents are outside
  the embedded fragment; texts using them simply fall outside the grammars
  of both embedded parsers.
* `cleanList`/`cleanText` embed the markdown-fence stripping step.
* `matchPat`/`ffp`/`rescueParse` embed the `re.findall(r'\[\s*\{[^}]*\}\s*\]', ...)`
  rescue (the regex is deterministic: `[^}]*` can never cross a `}`, so
  backtracking never helps, and the leftmost match is `matches[0]`).
* `parseChain` embeds the five-strategy fallback chain of `analyze_image`,
  `normalizeAnswers` its final answer-processing loop, `runRoute` the
  status/filter logic of the `/calculate` route, and
  `extractTextFromGeminiResponse` the response-shape probing extractor
  (Python attribute access is modelled by `Attr`: `raising` is a property
  whose access throws, which `hasattr` reports as absent; `PyIter.bad` is a
  present attribute value whose iteration raises).

Number values are kept as tokens (sign, integer digits, optional fraction
digits) rather than evaluated, so no floating-point semantics is needed;
every claim below only compares values arising from the same token stream.
-/

/-! ## Character classes -/

/-- JSON insignificant whitespace (also used for Python source whitespace in
the embedded `ast.literal_eval` fragment). -/
def jws (c : Char) : Bool :=
  c == ' ' || c == '\t' || c == '\n' || c == '\r'

/-- The characters removed by Python's `str.strip()` (ASCII part; the rare
extra Unicode space characters Python also strips never interact with the
grammars here).  This is also exactly `re`'s ASCII `\s` class. -/
def pws (c : Char) : Bool :=
  jws c || c == '\x0b' || c == '\x0c'

/-- The backtick character (written via its code point). -/
def btick : Char := Char.ofNat 96

/-- The triple-backtick fence marker, as a character list. -/
def fenceMarker : List Char := [btick, btick, btick]

/-! ## Python `str.strip()` -/

/-- Drop the longest suffix of characters satisfying `p`. -/
def dropTrail (p : Char → Bool) (l : List Char) : List Char :=
  (l.reverse.dropWhile p).reverse

/-- Strip characters satisfying `p` from both ends. -/
def stripEnds (p : Char → Bool) (l : List Char) : List Char :=
  dropTrail p (l.dropWhile p)

/-- Python `str.strip()` on character lists. -/
def pstrip (l : List Char) : List Char := stripEnds pws l

/-- Python `str.strip()` on strings. -/
def pstripStr (s : String) : String := ⟨pstrip s.data⟩

/-! ## The parsed-value type -/

/-- Structured values produced by the embedded parsers.  Numbers are kept as
literal tokens: `num neg ip fp` is the literal with optional minus sign,
integer digits `ip` and optional fraction digits `fp`. -/
inductive JVal where
  | str (s : String)
  | num (neg : Bool) (ip : List Char) (fp : Option (List Char))
  | bool (b : Bool)
  | null
  | arr (elems : List JVal)
  | obj (fields : List (String × JVal))

/-- `isinstance(v, dict)`. -/
def isDict : JVal → Bool
  | .obj _ => true
  | _ => false

/-- `isinstance(v, list)`. -/
def isListV : JVal → Bool
  | .arr _ => true
  | _ => false

/-! ## The embedded parsers

Both `json.loads` and `ast.literal_eval` are embedded by one fuel-indexed
recursive parser, parameterized on `perm` (permissive = Python literal
syntax).  The top level strips insignificant whitespace from both ends and
requires the value to consume the entire remaining text, which is exactly
the acceptance behaviour of both library functions. -/

/-- Parse a string body after the opening quote `q`; the embedded fragment
has no escape sequences, so a backslash or control character ends the
parse unsuccessfully. -/
def parseStrBody (q : Char) (l : List Char) : Option (String × List Char) :=
  let keep := fun c => !(c == q || c == '\\' || decide (c.toNat < 32))
  let rest := l.dropWhile keep
  if rest.head? == some q then some (⟨l.takeWhile keep⟩, rest.tail) else none

/-- Parse digits (and an optional fraction part) after an already-consumed
sign.  Multi-digit tokens with a leading `0` are rejected, as in both
grammars. -/
def parseNumCore (neg : Bool) (l : List Char) : Option (JVal × List Char) :=
  let ds := l.takeWhile Char.isDigit
  let r1 := l.dropWhile Char.isDigit
  if ds.isEmpty then none
  else if decide (1 < ds.length) && (ds.head? == some '0') then none
  else if r1.head? == some '.' then
    let fs := r1.tail.takeWhile Char.isDigit
    if fs.isEmpty then none
    else some (.num neg ds (some fs), r1.tail.dropWhile Char.isDigit)
  else some (.num neg ds none, r1)

/-- Require `pat` as a literal prefix and return the rest. -/
def expectChars (pat l : List Char) : Option (List Char) :=
  if pat.isPrefixOf l then some (l.drop pat.length) else none

/-- Python-style dict insertion: replace in place if the key exists,
otherwise append. -/
def dictInsert (acc : List (String × JVal)) (k : String) (v : JVal) :
    List (String × JVal) :=
  if acc.any (fun p => p.1 == k) then
    acc.map (fun p => if p.1 == k then (k, v) else p)
  else acc ++ [(k, v)]

/-- Collapse a raw member list the way repeated `d[k] = v` does. -/
def dedupFields (ms : List (String × JVal)) : List (String × JVal) :=
  ms.foldl (fun acc kv => dictInsert acc kv.1 kv.2) []

mutual

/-- The value parser.  `perm = false` is the JSON grammar, `perm = true` the
Python-literal grammar.  It does not skip leading whitespace; callers skip
whitespace where the grammar allows it. -/
def parseVal (perm : Bool) : Nat → List Char → Option (JVal × List Char)
  | 0, _ => none
  | _ + 1, [] => none
  | f + 1, c :: t =>
    if c == '[' then
      let t1 := t.dropWhile jws
      if t1.head? == some ']' then some (.arr [], t1.tail)
      else (parseLoopArr perm f t1).map (fun p => (.arr p.1, p.2))
    else if c == '{' then
      let t1 := t.dropWhile jws
      if t1.head? == some '}' then some (.obj [], t1.tail)
      else (parseLoopObj perm f t1).map (fun p => (.obj (dedupFields p.1), p.2))
    else if c == '"' then
      (parseStrBody '"' t).map (fun p => (.str p.1, p.2))
    else if perm && c == '\'' then
      (parseStrBody '\'' t).map (fun p => (.str p.1, p.2))
    else if !perm && c == 't' then
      (expectChars ['r', 'u', 'e'] t).map (fun r => (.bool true, r))
    else if !perm && c == 'f' then
      (expectChars ['a', 'l', 's', 'e'] t).map (fun r => (.bool false, r))
    else if !perm && c == 'n' then
      (expectChars ['u', 'l', 'l'] t).map (fun r => (.null, r))
    else if perm && c == 'T' then
      (expectChars ['r', 'u', 'e'] t).map (fun r => (.bool true, r))
    else if perm && c == 'F' then
      (expectChars ['a', 'l', 's', 'e'] t).map (fun r => (.bool false, r))
    else if perm && c == 'N' then
      (expectChars ['o', 'n', 'e'] t).map (fun r => (.null, r))
    else if c.isDigit then
      parseNumCore false (c :: t)
    else if c == '-' then
      parseNumCore true t
    else if perm && c == '+' then
      parseNumCore false t
    else none

/-- One-or-more array elements followed by `]`; the result rest is what
follows the closing bracket. -/
def parseLoopArr (perm : Bool) : Nat → List Char → Option (List JVal × List Char)
  | 0, _ => none
  | f + 1, l =>
    match parseVal perm f l with
    | none => none
    | some (v, r1) =>
      let r2 := r1.dropWhile jws
      if r2.head? == some ',' then
        (parseLoopArr perm f (r2.tail.dropWhile jws)).map (fun p => (v :: p.1, p.2))
      else if r2.head? == some ']' then some ([v], r2.tail)
      else none

/-- One-or-more `key : value` members followed by `}`; keys are strings. -/
def parseLoopObj (perm : Bool) :
    Nat → List Char → Option (List (String × JVal) × List Char)
  | 0, _ => none
  | f + 1, l =>
    match
      (if l.head? == some '"' then parseStrBody '"' l.tail
       else if perm && (l.head? == some '\'') then parseStrBody '\'' l.tail
       else none) with
    | none => none
    | some (k, r1) =>
      let r2 := r1.dropWhile jws
      if r2.head? == some ':' then
        match parseVal perm f (r2.tail.dropWhile jws) with
        | none => none
        | some (v, r5) =>
          let r6 := r5.dropWhile jws
          if r6.head? == some ',' then
            (parseLoopObj perm f (r6.tail.dropWhile jws)).map
              (fun p => ((k, v) :: p.1, p.2))
          else if r6.head? == some '}' then some ([(k, v)], r6.tail)
          else none
      else none

end

/-- Top-level acceptance shared by both library parsers: strip insignificant
whitespace from both ends, then the value must consume the whole core. -/
def loadsCore (perm : Bool) (l : List Char) : Option JVal :=
  let core := stripEnds jws l
  match parseVal perm (4 * core.length + 4) core with
  | some (v, []) => some v
  | _ => none

/-- Embedding of `json.loads` (restricted grammar, see module comment). -/
def jsonLoads (s : String) : Option JVal := loadsCore false s.data

/-- Embedding of `ast.literal_eval` (restricted grammar, see module comment). -/
def astLiteralEval (s : String) : Option JVal := loadsCore true s.data

/-! ## Line splitting and substring search

`splitNl`/`joinNl` embed Python's `s.split('\n')` / `'\n'.join(...)`;
`findSub`/`rfindSub` embed `s.find(sub)` / `s.rfind(sub)` (returning
`none` instead of `-1`). -/

/-- Python `s.split('\n')`. -/
def splitNl : List Char → List (List Char)
  | [] => [[]]
  | c :: t =>
    if c == '\n' then [] :: splitNl t
    else
      match splitNl t with
      | h :: r => (c :: h) :: r
      | [] => [[c]]

/-- Python `'\n'.join(lines)`. -/
def joinNl : List (List Char) → List Char
  | [] => []
  | [h] => h
  | h :: r => h ++ '\n' :: joinNl r

/-- Does `pat` occur in `l` starting at index `i`? -/
def occursAt (l pat : List Char) (i : Nat) : Bool :=
  pat.isPrefixOf (l.drop i)

/-- Python `s.find(pat)`: the least occurrence index. -/
def findSub (l pat : List Char) : Option Nat := findSubAux l pat 0 l
where
  findSubAux (l pat : List Char) : Nat → List Char → Option Nat
    | i, rest =>
      if pat.isPrefixOf rest then some i
      else
        match rest with
        | [] => none
        | _ :: t => findSubAux l pat (i + 1) t

/-- Python `s.rfind(pat)`: the greatest occurrence index, found by scanning
indices downward from `l.length`. -/
def rfindSub (l pat : List Char) : Option Nat := rfindAux l pat (l.length + 1)
where
  rfindAux (l pat : List Char) : Nat → Option Nat
    | 0 => none
    | k + 1 => if occursAt l pat k then some k else rfindAux l pat k

/-! ## The markdown-fence cleaner -/

/-- The language tags whose single line is removed after fence stripping. -/
def langTags : List (List Char) :=
  ["python".data, "json".data, "javascript".data, "js".data]

/-- The text-cleaning stage of `analyze_image`: strip, then if the text
starts with a triple-backtick fence, cut out the region strictly between
the first and last fence occurrence (when distinct), strip it, and drop a
leading language-tag line. -/
def cleanList (s : List Char) : List Char :=
  let t := pstrip s
  if fenceMarker.isPrefixOf t then
    match findSub t fenceMarker, rfindSub t fenceMarker with
    | some i, some j =>
      if i == j then t
      else
        let content := pstrip ((t.drop (i + 3)).take (j - (i + 3)))
        match splitNl content with
        | [] => content
        | l0 :: rest =>
          if pstrip l0 ∈ langTags then pstrip (joinNl rest) else content
    | _, _ => t
  else t

/-- The cleaner on strings. -/
def cleanText (s : String) : String := ⟨cleanList s.data⟩

/-! ## The regex rescue

`matchPat` is the deterministic equivalent of Python's
`re.match(r'\[\s*\{[^}]*\}\s*\]', ...)` at one position: `[^}]*` cannot
cross a `}`, so the matched `}` is necessarily the first one, and no
backtracking can recover from a later failure.  `ffp` scans positions left
to right, so it returns `re.findall(...)[0]`. -/

/-- Match `\[\s*\{[^}]*\}\s*\]` at the head of `l`, returning the matched
characters. -/
def matchPat (l : List Char) : Option (List Char) :=
  if l.head? == some '[' then
    let t := l.tail
    let u1 := t.dropWhile pws
    if u1.head? == some '{' then
      let t2 := u1.tail
      let u2 := t2.dropWhile (fun c => !(c == '}'))
      if u2.head? == some '}' then
        let t3 := u2.tail
        let u3 := t3.dropWhile pws
        if u3.head? == some ']' then
          some ('[' :: t.takeWhile pws ++ '{' :: t2.takeWhile (fun c => !(c == '}'))
            ++ '}' :: t3.takeWhile pws ++ [']'])
        else none
      else none
    else none
  else none

/-- Leftmost match of the rescue pattern in `l` (`matchPat [] = none`, so
scanning may start from the empty list). -/
def ffp : List Char → Option (List Char)
  | [] => none
  | c :: t =>
    match matchPat (c :: t) with
    | some m => some m
    | none => ffp t

/-- Strategy 5 of the fallback chain: find the first
`[ { ... } ]`-shaped substring of the original text and parse it with
`json.loads`, then `ast.literal_eval`. -/
def rescueParse (txt : String) : Option JVal :=
  match ffp txt.data with
  | none => none
  | some m =>
    match jsonLoads ⟨m⟩ with
    | some v => some v
    | none => astLiteralEval ⟨m⟩

/-! ## The five-strategy fallback chain -/

/-- The parsing chain of `analyze_image`: strict parse of the cleaned text,
permissive parse of the cleaned text, strict parse of the original text,
permissive parse of the original text, regex rescue on the original text. -/
def parseChain (txt : String) : Option JVal :=
  let cleaned := cleanText txt
  match jsonLoads cleaned with
  | some v => some v
  | none =>
    match astLiteralEval cleaned with
    | some v => some v
    | none =>
      match jsonLoads txt with
      | some v => some v
      | none =>
        match astLiteralEval txt with
        | some v => some v
        | none => rescueParse txt

/-! ## The normalizer and the route -/

/-- `'assign' in answer`. -/
def hasAssign (fs : List (String × JVal)) : Bool :=
  fs.any (fun p => p.1 == "assign")

/-- `if 'assign' not in answer: answer['assign'] = False`. -/
def ensureAssignFields (fs : List (String × JVal)) : List (String × JVal) :=
  if hasAssign fs then fs else fs ++ [("assign", JVal.bool false)]

/-- `if not isinstance(answers, list): answers = [answers]`. -/
def toAnswersList (v : JVal) : List JVal :=
  match v with
  | .arr l => l
  | _ => [v]

/-- The per-answer step of `analyze_image`'s final loop: dict answers get a
default `assign`, non-dict answers are left in place (only warned about). -/
def normalizeAnswer (a : JVal) : JVal :=
  match a with
  | .obj fs => .obj (ensureAssignFields fs)
  | _ => a

/-- The list `analyze_image` returns after a successful parse. -/
def normalizeAnswers (v : JVal) : List JVal :=
  (toAnswersList v).map normalizeAnswer

/-- The pure part of `analyze_image` downstream of text extraction: empty
text or a failed chain yields `[]`, otherwise the normalized answers. -/
def analyzeImageOnText (txt : String) : List JVal :=
  if txt == "" then []
  else
    match parseChain txt with
    | none => []
    | some v => normalizeAnswers v

/-- Outcome of the base64/image decoding attempted by the route before the
pipeline runs; `b64Error` is `binascii.Error`, `decodeError` any other
exception while decoding/opening the image. -/
inductive DecodeOutcome where
  | ok
  | b64Error
  | decodeError

/-- Response statuses of the `/calculate` route. -/
inductive RStatus where
  | success
  | warning
  | error
deriving DecidableEq

deriving instance DecidableEq for DecodeOutcome

/-- The route's response value. -/
structure RouteResponse where
  message : String
  data : List JVal
  status : RStatus

/-- The `/calculate` route body (`run` in `route.py`): reject an empty image
field, turn decode failures into `error`, report `warning` when
`analyze_image` returned an empty list, and otherwise answer `success`
with the dict-shaped responses only. -/
def runRoute (image : String) (dec : DecodeOutcome) (responses : List JVal) :
    RouteResponse :=
  if image == "" then ⟨"No image data provided", [], .error⟩
  else
    match dec with
    | .b64Error => ⟨"Invalid base64 image data", [], .error⟩
    | .decodeError => ⟨"Error processing image", [], .error⟩
    | .ok =>
      if responses.isEmpty then ⟨"No results found", [], .warning⟩
      else ⟨"Image processed successfully", responses.filter isDict, .success⟩

/-- The data the route finally returns for a parsed value `v`. -/
def finalRouteData (v : JVal) : List JVal :=
  (normalizeAnswers v).filter isDict

/-! ## The Gemini response-text extractor

`_extract_text_from_gemini_response` probes a response object of unknown
shape.  Python attribute access is modelled by `Attr`: `absent` means the
attribute does not exist, `present a` that access yields `a`, and
`raising` that access throws — in which case `hasattr` returns `False`, so
a guarded `hasattr(x, 'a') and x.a` simply skips the attribute.  A present
sequence whose iteration itself throws (e.g. a non-iterable value) is
`PyIter.bad`; that throw is *not* absorbed by `hasattr` and lands in the
function's single outer `except`, which prints and falls to `return ""`. -/

/-- Python attribute state. -/
inductive Attr (α : Type) where
  | absent
  | present (a : α)
  | raising

/-- A present sequence value: iterable with the given elements, or one whose
iteration raises. -/
inductive PyIter (α : Type) where
  | ok (l : List α)
  | bad

/-- A `parts` element: may or may not carry usable text. -/
structure GPart where
  text : Attr String

/-- A `content` object wrapping parts. -/
structure GContent where
  parts : Attr (PyIter GPart)

/-- A `candidates` element wrapping content. -/
structure GCandidate where
  content : Attr GContent

/-- The response object: the five probe-able shapes plus its `str(...)`
representation (`none` models `str` raising) and `str(type(...))`. -/
structure GResponse where
  text : Attr String
  parts : Attr (PyIter GPart)
  candidates : Attr (PyIter GCandidate)
  content : Attr GContent
  strRep : Option String
  typeRep : String

/-- `[part.text for part in parts if hasattr(part, 'text') and part.text]`. -/
def partTexts (l : List GPart) : List String :=
  l.filterMap (fun p =>
    match p.text with
    | .present s => if s == "" then none else some s
    | _ => none)

/-- Level 1: `hasattr(response, 'text') and response.text`.  Guarded purely
by `hasattr`, so it never raises. -/
def tryTextAttr (r : GResponse) : Except Unit (Option String) :=
  match r.text with
  | .present s => if s == "" then .ok none else .ok (some s)
  | _ => .ok none

/-- Level 2: concatenate the non-empty part texts; iterating a bad `parts`
value raises. -/
def tryPartsAttr (r : GResponse) : Except Unit (Option String) :=
  match r.parts with
  | .present .bad => .error ()
  | .present (.ok l) =>
    match partTexts l with
    | [] => .ok none
    | ts => .ok (some (String.join ts))
  | _ => .ok none

/-- Scan candidates in order, returning the first non-empty concatenation of
content-part texts; a bad inner `parts` raises. -/
def candScan : List GCandidate → Except Unit (Option String)
  | [] => .ok none
  | c :: rest =>
    match c.content with
    | .present co =>
      match co.parts with
      | .present .bad => .error ()
      | .present (.ok pl) =>
        match partTexts pl with
        | [] => candScan rest
        | ts => .ok (some (String.join ts))
      | _ => candScan rest
    | _ => candScan rest

/-- Level 3: the candidates loop; iterating a bad `candidates` raises. -/
def tryCandidatesAttr (r : GResponse) : Except Unit (Option String) :=
  match r.candidates with
  | .present .bad => .error ()
  | .present (.ok cs) => candScan cs
  | _ => .ok none

/-- Level 4: a direct `content` object carrying parts. -/
def tryContentAttr (r : GResponse) : Except Unit (Option String) :=
  match r.content with
  | .present co =>
    match co.parts with
    | .present .bad => .error ()
    | .present (.ok pl) =>
      match partTexts pl with
      | [] => .ok none
      | ts => .ok (some (String.join ts))
    | _ => .ok none
  | _ => .ok none

/-- Level 5: `str(response)`, used only if non-empty and different from
`str(type(response))`. -/
def tryStrAttr (r : GResponse) : Except Unit (Option String) :=
  match r.strRep with
  | none => .error ()
  | some s => if s != "" && s != r.typeRep then .ok (some s) else .ok none

/-- The extractor's `try` block: probe the five shapes in order; a raise
anywhere aborts the whole block. -/
def extractCore (r : GResponse) : Except Unit String :=
  match tryTextAttr r with
  | .error _ => .error ()
  | .ok (some s) => .ok s
  | .ok none =>
    match tryPartsAttr r with
    | .error _ => .error ()
    | .ok (some s) => .ok s
    | .ok none =>
      match tryCandidatesAttr r with
      | .error _ => .error ()
      | .ok (some s) => .ok s
      | .ok none =>
        match tryContentAttr r with
        | .error _ => .error ()
        | .ok (some s) => .ok s
        | .ok none =>
          match tryStrAttr r with
          | .error _ => .error ()
          | .ok (some s) => .ok s
          | .ok none => .ok ""

/-- `_extract_text_from_gemini_response`: the `except` handler prints and
execution falls to the final `return ""`. -/
def extractTextFromGeminiResponse (r : GResponse) : String :=
  match extractCore r with
  | .ok s => s
  | .error _ => ""

/-! ## Extractor level-failure predicates (for claim C5) -/

/-- Level 1 finds no usable text (without raising). -/
def levelFailText (r : GResponse) : Bool :=
  match r.text with
  | .present s => s == ""
  | _ => true

/-- Level 2 finds no usable text (without raising). -/
def levelFailParts (r : GResponse) : Bool :=
  match r.parts with
  | .present (.ok l) => (partTexts l).isEmpty
  | .present .bad => false
  | _ => true

/-- One candidate yields no usable text (without raising). -/
def candFail (c : GCandidate) : Bool :=
  match c.content with
  | .present co =>
    match co.parts with
    | .present (.ok pl) => (partTexts pl).isEmpty
    | .present .bad => false
    | _ => true
  | _ => true

/-- Level 3 finds no usable text (without raising). -/
def levelFailCands (r : GResponse) : Bool :=
  match r.candidates with
  | .present (.ok cs) => cs.all candFail
  | .present .bad => false
  | _ => true

/-- Level 4 finds no usable text (without raising). -/
def levelFailContent (r : GResponse) : Bool :=
  match r.content with
  | .present co =>
    match co.parts with
    | .present (.ok pl) => (partTexts pl).isEmpty
    | .present .bad => false
    | _ => true
  | _ => true

/-- Level 5 finds no usable text (without raising). -/
def levelFailStr (r : GResponse) : Bool :=
  match r.strRep with
  | some s => s == "" || s == r.typeRep
  | none => false

/-- All five levels fail without any raise. -/
def allLevelsFail (r : GResponse) : Bool :=
  levelFailText r && levelFailParts r && levelFailCands r &&
    levelFailContent r && levelFailStr r

/-- A response whose `parts` attribute is present but raises on iteration,
while the `candidates` path carries usable text. -/
def badPartsResponse : GResponse :=
  ⟨.absent, .present .bad,
   .present (.ok [⟨.present ⟨.present (.ok [⟨.present "hi"⟩])⟩⟩]),
   .absent, some "x", "x"⟩

/-- No occurrence of the fence marker at a positive index (Boolean form,
scanning all indices where an occurrence is possible). -/
def noLaterFence (l : List Char) : Bool :=
  (List.range (l.length + 1)).all (fun i => i == 0 || !(occursAt l fenceMarker i))

/-- A value shaped as a list of mappings. -/
def isListOfDicts (v : JVal) : Bool :=
  match v with
  | .arr l => l.all isDict
  | _ => false

/-! ## Lemmas for the fencing round-trip (claim C6) -/

/-- The fenced wrapping of a text, with the `python` language tag. -/
def wrapFenced (s : String) : String := "```python\n" ++ s ++ "\n```"

theorem pws_of_jws {c : Char} (h : jws c = true) : pws c = true := by
  simp [pws, h]

theorem jws_eq_false_of_pws {c : Char} (h : pws c = false) : jws c = false := by
  by_cases hj : jws c = true
  · rw [pws_of_jws hj] at h; cases h
  · simpa using hj

/-! ## List helper lemmas -/

theorem dropWhile_cons_neg {p : Char → Bool} {c : Char} (t : List Char)
    (h : p c = false) : (c :: t).dropWhile p = c :: t := by
  simp [List.dropWhile, h]

theorem dropWhile_append_all {p : Char → Bool} {a : List Char} (b : List Char)
    (h : ∀ c ∈ a, p c = true) : (a ++ b).dropWhile p = b.dropWhile p := by
  induction a with
  | nil => rfl
  | cons x xs ih =>
    have hx : p x = true := h x (by simp)
    simp only [List.cons_append, List.dropWhile, hx]
    exact ih (fun c hc => h c (by simp [hc]))

theorem dropWhile_head_neg {p : Char → Bool} {l t : List Char} {c : Char}
    (h : l.dropWhile p = c :: t) : p c = false := by
  have := List.head?_dropWhile_not p l
  rw [h] at this
  simpa using this

theorem takeWhile_all {p : Char → Bool} (l : List Char) :
    ∀ c ∈ l.takeWhile p, p c = true := fun _ hc => List.mem_takeWhile_imp hc

theorem takeWhile_append_dropWhile_eq {p : Char → Bool} (l : List Char) :
    l.takeWhile p ++ l.dropWhile p = l := List.takeWhile_append_dropWhile p l

theorem dropTrail_decomp (p : Char → Bool) (l : List Char) :
    ∃ suf, l = dropTrail p l ++ suf ∧ ∀ c ∈ suf, p c = true := by
  refine ⟨(l.reverse.takeWhile p).reverse, ?_, ?_⟩
  · have h2 : l = (l.reverse.takeWhile p ++ l.reverse.dropWhile p).reverse := by
      rw [takeWhile_append_dropWhile_eq]; simp
    rw [List.reverse_append] at h2
    exact h2
  · intro c hc
    exact takeWhile_all _ c (by simpa using hc)

theorem dropTrail_last (p : Char → Bool) (l : List Char) :
    dropTrail p l = [] ∨ ∃ q e, dropTrail p l = q ++ [e] ∧ p e = false := by
  unfold dropTrail
  rcases h : l.reverse.dropWhile p with _ | ⟨c, t⟩
  · left; simp
  · right
    exact ⟨t.reverse, c, by simp, dropWhile_head_neg h⟩

theorem dropTrail_append_all (p : Char → Bool) (a : List Char) {b : List Char}
    (h : ∀ c ∈ b, p c = true) : dropTrail p (a ++ b) = dropTrail p a := by
  unfold dropTrail
  rw [List.reverse_append, dropWhile_append_all a.reverse (fun c hc => h c (by simpa using hc))]

theorem dropTrail_concat {p : Char → Bool} (q : List Char) {e : Char}
    (h : p e = false) : dropTrail p (q ++ [e]) = q ++ [e] := by
  unfold dropTrail
  rw [List.reverse_append]
  simp only [List.reverse_cons, List.reverse_nil, List.nil_append, List.singleton_append]
  rw [dropWhile_cons_neg _ h]
  simp

theorem stripEnds_decomp (p : Char → Bool) (l : List Char) :
    ∃ pre suf, l = pre ++ stripEnds p l ++ suf ∧
      (∀ c ∈ pre, p c = true) ∧ ∀ c ∈ suf, p c = true := by
  obtain ⟨suf, hsuf, hall⟩ := dropTrail_decomp p (l.dropWhile p)
  exact ⟨l.takeWhile p, suf, by
    conv_lhs => rw [← takeWhile_append_dropWhile_eq (p := p) l, hsuf]
    simp [stripEnds], takeWhile_all l, hall⟩

/-- The two boundary facts that make `str.strip()` agree with
whitespace-insensitive acceptance: if the `jws`-stripped core starts and
ends with a non-`pws` character, then `pstrip` yields exactly that core. -/
theorem pstrip_eq_core {l core : List Char} (hcore : stripEnds jws l = core)
    {c : Char} {t : List Char} (hhead : core = c :: t) (hc : pws c = false)
    {q : List Char} {e : Char} (hlast : core = q ++ [e]) (he : pws e = false) :
    pstrip l = core := by
  obtain ⟨pre, suf, hl, hpre, hsuf⟩ := stripEnds_decomp jws l
  rw [hcore] at hl
  unfold pstrip stripEnds
  rw [hl, List.append_assoc, dropWhile_append_all (core ++ suf)
    (fun x hx => pws_of_jws (hpre x hx))]
  rw [hhead, List.cons_append, dropWhile_cons_neg _ hc, ← List.cons_append, ← hhead]
  rw [dropTrail_append_all pws core (fun x hx => pws_of_jws (hsuf x hx))]
  rw [hlast]
  exact dropTrail_concat q he

theorem stripEnds_eq_self {p : Char → Bool} {core : List Char}
    {c : Char} {t : List Char} (hhead : core = c :: t) (hc : p c = false)
    {q : List Char} {e : Char} (hlast : core = q ++ [e]) (he : p e = false) :
    stripEnds p core = core := by
  unfold stripEnds
  rw [hhead, dropWhile_cons_neg _ hc, ← hhead, hlast]
  exact dropTrail_concat q he

theorem pstrip_nil_all {l : List Char} (h : pstrip l = []) :
    ∀ c ∈ l, pws c = true := by
  obtain ⟨pre, suf, hl, hpre, hsuf⟩ := stripEnds_decomp pws l
  rw [show stripEnds pws l = pstrip l from rfl, h] at hl
  intro c hc
  rw [hl] at hc
  rcases List.mem_append.1 hc with hm | hm
  · rcases List.mem_append.1 hm with hm2 | hm2
    · exact hpre c hm2
    · cases hm2
  · exact hsuf c hm

/-- `pstrip` is idempotent. -/
theorem pstrip_idem (l : List Char) : pstrip (pstrip l) = pstrip l := by
  have hdt : dropTrail pws (l.dropWhile pws) = pstrip l := rfl
  rcases h : pstrip l with _ | ⟨c, t⟩
  · rfl
  · have hc : pws c = false := by
      obtain ⟨suf, hsuf, _⟩ := dropTrail_decomp pws (l.dropWhile pws)
      rw [hdt, h] at hsuf
      exact dropWhile_head_neg (t := t ++ suf) (by rw [hsuf]; simp)
    rcases dropTrail_last pws (l.dropWhile pws) with h0 | ⟨q, e, hq, he⟩
    · rw [hdt, h] at h0; cases h0
    · rw [hdt, h] at hq
      exact stripEnds_eq_self rfl hc hq he

/-! ## Normalizer facts (claims C2, C3) -/

theorem isDict_normalizeAnswer (a : JVal) : isDict (normalizeAnswer a) = isDict a := by
  cases a <;> rfl

theorem normalizeAnswer_of_not_dict {a : JVal} (h : isDict a = false) :
    normalizeAnswer a = a := by
  cases a <;> first | rfl | (cases h)

theorem norm_filter_length (l : List JVal) :
    ((l.map normalizeAnswer).filter isDict).length
      + l.countP (fun a => !(isDict a)) = l.length := by
  induction l with
  | nil => rfl
  | cons a t ih =>
    by_cases h : isDict a = true
    · simp only [List.map_cons, List.filter_cons, List.countP_cons,
        isDict_normalizeAnswer, h, if_pos, List.length_cons]
      simp only [Bool.not_true, decide_False, Bool.false_eq_true, if_false]
      omega
    · have h' : isDict a = false := by simpa using h
      simp only [List.map_cons, List.filter_cons, List.countP_cons,
        isDict_normalizeAnswer, h', List.length_cons]
      simp only [Bool.not_false, if_true, Bool.false_eq_true, if_false]
      omega

/-- Claim C2: the final route output contains only mapping-shaped values;
non-mapping elements of the parsed sequence are dropped, and the number of
dropped elements (`countP` of the non-dicts) accounts exactly for the
difference between the parsed length and the output length. -/
theorem claim_C2_only_dicts_survive (v : JVal) :
    (∀ x ∈ finalRouteData v, isDict x = true) ∧
    (finalRouteData v).length + (toAnswersList v).countP (fun a => !(isDict a)) =
      (toAnswersList v).length := by
  constructor
  · intro x hx
    exact (List.mem_filter.1 hx).2
  · exact norm_filter_length (toAnswersList v)

/-- Claim C3: for every mapping element of the parsed value, normalization
appends `assign = False` exactly when the key is absent, and otherwise
returns the mapping with all keys and values untouched. -/
theorem claim_C3_assign_defaulting (v : JVal) (i : Nat) (fs : List (String × JVal))
    (h : (toAnswersList v)[i]? = some (.obj fs)) :
    (normalizeAnswers v)[i]? = some (.obj (ensureAssignFields fs)) ∧
    (hasAssign fs = true → ensureAssignFields fs = fs) ∧
    (hasAssign fs = false →
      ensureAssignFields fs = fs ++ [("assign", JVal.bool false)]) := by
  refine ⟨?_, ?_, ?_⟩
  · unfold normalizeAnswers
    rw [List.getElem?_map, h]
    rfl
  · intro ha; simp [ensureAssignFields, ha]
  · intro ha; simp [ensureAssignFields, ha]

theorem claim_C3_assign_defaulting_witness :
    (toAnswersList (.arr [.obj [("expr", JVal.str "x")]]))[0]?
        = some (.obj [("expr", JVal.str "x")]) ∧
    (normalizeAnswers (.arr [.obj [("expr", JVal.str "x")]]))[0]?
        = some (.obj (ensureAssignFields [("expr", JVal.str "x")])) :=
  ⟨rfl, (claim_C3_assign_defaulting (.arr [.obj [("expr", JVal.str "x")]]) 0
    [("expr", JVal.str "x")] rfl).1⟩

/-! ## Route status facts (claims C4, C10) -/

/-- Claim C4: the route answers `warning` exactly when decoding succeeded and
the pipeline returned an empty sequence, `error` exactly on input/decode
failures, and `success` otherwise. -/
theorem claim_C4_route_statuses (image : String) (dec : DecodeOutcome)
    (responses : List JVal) :
    ((runRoute image dec responses).status = .warning ↔
      (image ≠ "" ∧ dec = .ok ∧ responses = [])) ∧
    ((runRoute image dec responses).status = .error ↔
      (image = "" ∨ dec ≠ .ok)) ∧
    ((runRoute image dec responses).status = .success ↔
      (image ≠ "" ∧ dec = .ok ∧ responses ≠ [])) := by
  by_cases himg : image = ""
  · subst himg
    cases dec <;> simp [runRoute]
  · have hb : (image == "") = false := by
      simpa using himg
    cases dec <;>
      by_cases hr : responses = [] <;>
        simp [runRoute, hb, himg, hr]

/-- Claim C10: a successful parse yielding a non-empty sequence of
exclusively non-mapping values makes the route answer `success` with empty
data, not `warning`. -/
theorem claim_C10_success_with_empty_data (image txt : String) (l : List JVal)
    (himg : image ≠ "") (hchain : parseChain txt = some (.arr l))
    (hne : l ≠ []) (hnd : ∀ e ∈ l, isDict e = false) :
    (runRoute image .ok (analyzeImageOnText txt)).status = .success ∧
    (runRoute image .ok (analyzeImageOnText txt)).data = [] := by
  have htxt : txt ≠ "" := by
    intro h
    rw [h] at hchain
    rw [show parseChain "" = none from rfl] at hchain
    cases hchain
  have htb : (txt == "") = false := by simpa using htxt
  have hib : (image == "") = false := by simpa using himg
  have hpipe : analyzeImageOnText txt = l.map normalizeAnswer := by
    unfold analyzeImageOnText
    rw [htb, hchain]
    rfl
  have hne' : (l.map normalizeAnswer).isEmpty = false := by
    cases l with
    | nil => cases hne rfl
    | cons a t => rfl
  have hfilter : (l.map normalizeAnswer).filter isDict = [] := by
    rw [List.filter_eq_nil_iff]
    intro a ha
    obtain ⟨b, hb, rfl⟩ := List.mem_map.1 ha
    rw [isDict_normalizeAnswer, hnd b hb]
    simp
  constructor
  · unfold runRoute
    rw [hib, hpipe, hne']
    rfl
  · unfold runRoute
    rw [hib, hpipe, hne']
    simpa using hfilter

theorem claim_C10_success_with_empty_data_witness :
    parseChain "[1, 2]" = some (.arr [.num false ['1'] none, .num false ['2'] none]) ∧
    (runRoute "img" .ok (analyzeImageOnText "[1, 2]")).status = .success ∧
    (runRoute "img" .ok (analyzeImageOnText "[1, 2]")).data = [] :=
  ⟨rfl,
   claim_C10_success_with_empty_data "img" "[1, 2]"
     [.num false ['1'] none, .num false ['2'] none]
     (by simp) rfl (by simp) (by intro e he; fin_cases he <;> rfl)⟩

/-! ## Cleaner facts (claims C8, C9) -/

theorem cleanList_no_fence {l : List Char}
    (h : fenceMarker.isPrefixOf (pstrip l) = false) : cleanList l = pstrip l := by
  unfold cleanList
  simp [h]

/-- Every branch of the cleaner returns an already-stripped text. -/
theorem pstrip_cleanList (s : List Char) : pstrip (cleanList s) = cleanList s := by
  unfold cleanList
  dsimp only
  split
  · split
    · split
      · exact pstrip_idem s
      · split
        · exact pstrip_idem _
        · split
          · exact pstrip_idem _
          · exact pstrip_idem _
    · exact pstrip_idem s
  · exact pstrip_idem s

/-- Claim C8 counterexample: the cleaner is not idempotent.  On
`"``` ```a``` ```"` one cleaning pass leaves `"```a```"` (the region
between the outermost fences), and a second pass strips it further down to
`"a"`. -/
theorem claim_C8_cleaner_not_idempotent_counterexample :
    cleanText (cleanText "``` ```a``` ```") ≠ cleanText "``` ```a``` ```" := by
  decide

/-- Claim C8 (amended): the cleaner is idempotent on every text whose
once-cleaned form does not itself begin with the triple-backtick marker. -/
theorem claim_C8_cleaner_idempotent_amended (s : String)
    (h : fenceMarker.isPrefixOf (cleanText s).data = false) :
    cleanText (cleanText s) = cleanText s := by
  have hd : (cleanText s).data = cleanList s.data := rfl
  rw [hd] at h
  have h1 : pstrip (cleanList s.data) = cleanList s.data := pstrip_cleanList s.data
  have h2 : fenceMarker.isPrefixOf (pstrip (cleanList s.data)) = false := by
    rw [h1]; exact h
  show String.mk (cleanList (cleanList s.data)) = String.mk (cleanList s.data)
  rw [cleanList_no_fence h2, h1]

theorem claim_C8_cleaner_idempotent_amended_witness :
    fenceMarker.isPrefixOf (cleanText "  [1]  ").data = false ∧
    cleanText (cleanText "  [1]  ") = cleanText "  [1]  " :=
  ⟨by decide, claim_C8_cleaner_idempotent_amended "  [1]  " (by decide)⟩

/-! ## Find/rfind facts for claim C9 -/

theorem findSub_zero_of_pref {l pat : List Char} (h : pat.isPrefixOf l = true) :
    findSub l pat = some 0 := by
  unfold findSub findSub.findSubAux
  rw [h]
  simp

theorem occursAt_false_of_long {l pat : List Char} {i : Nat} (hpat : pat ≠ [])
    (h : l.length < i + pat.length) : occursAt l pat i = false := by
  by_contra hc
  have hp : pat.isPrefixOf (l.drop i) = true := by
    simpa [occursAt] using hc
  have hpre := List.isPrefixOf_iff_prefix.1 hp
  have hlen := hpre.length_le
  rw [List.length_drop] at hlen
  have hpos : 1 ≤ pat.length := List.length_pos.2 hpat
  omega

theorem rfindAux_eq_of_max {l pat : List Char} {n : Nat}
    (hocc : occursAt l pat n = true)
    (hmax : ∀ i, n < i → occursAt l pat i = false) :
    ∀ K, n < K → rfindSub.rfindAux l pat K = some n := by
  intro K
  induction K with
  | zero => intro h; omega
  | succ m ih =>
    intro hm
    unfold rfindSub.rfindAux
    by_cases hnm : n = m
    · subst hnm
      simp [hocc]
    · have hlt : n < m := by omega
      rw [hmax m hlt]
      simpa using ih hlt

theorem noLaterFence_spec {l : List Char} (h : noLaterFence l = true) :
    ∀ i, 0 < i → occursAt l fenceMarker i = false := by
  intro i hi
  by_cases hlen : l.length < i + fenceMarker.length
  · exact occursAt_false_of_long (by decide) hlen
  · have hir : i ∈ List.range (l.length + 1) := by
      rw [List.mem_range]
      have : fenceMarker.length = 3 := rfl
      omega
    have := (List.all_eq_true.1 h) i hir
    rcases Bool.or_eq_true_iff.1 this with h0 | hno
    · exfalso
      have : i = 0 := by simpa using h0
      omega
    · simpa using hno

/-- Claim C9: if the stripped text begins with the fence marker but the
marker occurs nowhere else, the cleaner returns the stripped text
unchanged, fence still present. -/
theorem claim_C9_lone_fence_kept (txt : String)
    (h1 : fenceMarker.isPrefixOf (pstrip txt.data) = true)
    (h2 : noLaterFence (pstrip txt.data) = true) :
    cleanText txt = pstripStr txt ∧
    fenceMarker.isPrefixOf (cleanText txt).data = true := by
  have hocc0 : occursAt (pstrip txt.data) fenceMarker 0 = true := by
    simpa [occursAt] using h1
  have hrf : rfindSub (pstrip txt.data) fenceMarker = some 0 :=
    rfindAux_eq_of_max hocc0 (noLaterFence_spec h2) _ (Nat.succ_pos _)
  have hff : findSub (pstrip txt.data) fenceMarker = some 0 :=
    findSub_zero_of_pref h1
  have hclean : cleanList txt.data = pstrip txt.data := by
    unfold cleanList
    dsimp only
    rw [h1, hff, hrf]
    simp
  constructor
  · show String.mk (cleanList txt.data) = pstripStr txt
    rw [hclean]
    rfl
  · show fenceMarker.isPrefixOf (cleanList txt.data) = true
    rw [hclean]
    exact h1

theorem claim_C9_lone_fence_kept_witness :
    fenceMarker.isPrefixOf (pstrip "```abc".data) = true ∧
    noLaterFence (pstrip "```abc".data) = true ∧
    cleanText "```abc" = pstripStr "```abc" :=
  ⟨by decide, by decide,
   (claim_C9_lone_fence_kept "```abc" (by decide) (by decide)).1⟩

/-! ## Parser consumption lemmas (for claims C1, C6, C7) -/

theorem cons_of_head? {l : List Char} {a : Char} (h : l.head? = some a) :
    l = a :: l.tail := by
  cases l with
  | nil => cases h
  | cons x xs =>
    simp only [List.head?] at h
    injection h with h
    rw [h]
    rfl

theorem expectChars_decomp {pat l r : List Char} (h : expectChars pat l = some r) :
    l = pat ++ r := by
  unfold expectChars at h
  split_ifs at h with hp
  injection h with h
  obtain ⟨rest, hrest⟩ := List.isPrefixOf_iff_prefix.1 hp
  rw [← hrest] at h ⊢
  rw [List.drop_left] at h
  rw [h]

theorem parseStrBody_decomp {q : Char} {l r : List Char} {s : String}
    (h : parseStrBody q l = some (s, r)) : ∃ b, l = b ++ q :: r := by
  unfold parseStrBody at h
  dsimp only at h
  split_ifs at h with hq
  injection h with h
  rw [Prod.mk.injEq] at h
  obtain ⟨hv, hr⟩ := h
  subst hr
  have hq' : (l.dropWhile fun c => !(c == q || c == '\\' || decide (c.toNat < 32))).head?
      = some q := by simpa using hq
  have hdec := cons_of_head? hq'
  refine ⟨l.takeWhile fun c => !(c == q || c == '\\' || decide (c.toNat < 32)), ?_⟩
  rw [← hdec]
  exact (takeWhile_append_dropWhile_eq l).symm

theorem pws_digit_false {c : Char} (hd : c.isDigit = true) : pws c = false := by
  cases hpw : pws c with
  | false => rfl
  | true =>
    exfalso
    simp only [pws, jws, Bool.or_eq_true, beq_iff_eq] at hpw
    rcases hpw with ((((h | h) | h) | h) | h) | h <;> subst h <;> exact absurd hd (by decide)

theorem takeWhile_ne_nil_concat {p : Char → Bool} {l : List Char}
    (h : (l.takeWhile p).isEmpty = false) :
    ∃ q e, l.takeWhile p = q ++ [e] ∧ p e = true := by
  rcases List.eq_nil_or_concat (l.takeWhile p) with h0 | ⟨q, e, hq⟩
  · rw [h0] at h
    cases h
  · refine ⟨q, e, by simpa using hq, ?_⟩
    have : e ∈ l.takeWhile p := by
      rw [hq]
      simp
    exact takeWhile_all l e this

theorem parseNumCore_decomp {neg : Bool} {l r : List Char} {v : JVal}
    (h : parseNumCore neg l = some (v, r)) :
    ∃ p e, l = p ++ e :: r ∧ pws e = false := by
  unfold parseNumCore at h
  dsimp only at h
  split_ifs at h with h1 h2 h3 h4
  · -- fraction branch
    injection h with h
    rw [Prod.mk.injEq] at h
    obtain ⟨hv, hr⟩ := h
    subst hr
    obtain ⟨q, e, hq, he⟩ := takeWhile_ne_nil_concat
      (l := (l.dropWhile Char.isDigit).tail) (by simpa using h4)
    have hdot : (l.dropWhile Char.isDigit).head? = some '.' := by simpa using h3
    have hdec := cons_of_head? hdot
    refine ⟨l.takeWhile Char.isDigit ++ '.' :: q, e, ?_, pws_digit_false he⟩
    have htail : (l.dropWhile Char.isDigit).tail
        = q ++ e :: (l.dropWhile Char.isDigit).tail.dropWhile Char.isDigit := by
      conv_lhs => rw [← takeWhile_append_dropWhile_eq (p := Char.isDigit)
        ((l.dropWhile Char.isDigit).tail)]
      rw [hq]
      simp
    conv_lhs => rw [← takeWhile_append_dropWhile_eq (p := Char.isDigit) l, hdec, htail]
    simp
  · -- integer branch
    injection h with h
    rw [Prod.mk.injEq] at h
    obtain ⟨hv, hr⟩ := h
    subst hr
    obtain ⟨q, e, hq, he⟩ := takeWhile_ne_nil_concat (l := l) (by simpa using h1)
    refine ⟨q, e, ?_, pws_digit_false he⟩
    calc l = l.takeWhile Char.isDigit ++ l.dropWhile Char.isDigit :=
          (takeWhile_append_dropWhile_eq l).symm
      _ = (q ++ [e]) ++ l.dropWhile Char.isDigit := by rw [hq]
      _ = q ++ e :: l.dropWhile Char.isDigit := by simp

theorem decompose_at_head {p : Char → Bool} {l : List Char} {a : Char}
    (h : (l.dropWhile p).head? = some a) :
    l = l.takeWhile p ++ a :: (l.dropWhile p).tail := by
  conv_lhs => rw [← takeWhile_append_dropWhile_eq (p := p) l, cons_of_head? h]

theorem parseVal_succ_shape {perm : Bool} {f : Nat} {c : Char} {t : List Char}
    {v : JVal} {r : List Char}
    (h : parseVal perm (f + 1) (c :: t) = some (v, r)) :
    (c = '[' ∧ v = .arr [] ∧ t.dropWhile jws = ']' :: r) ∨
    (c = '[' ∧ ∃ vs, parseLoopArr perm f (t.dropWhile jws) = some (vs, r) ∧ v = .arr vs) ∨
    (c = '{' ∧ v = .obj [] ∧ t.dropWhile jws = '}' :: r) ∨
    (c = '{' ∧ ∃ ms, parseLoopObj perm f (t.dropWhile jws) = some (ms, r) ∧
      v = .obj (dedupFields ms)) ∨
    (c = '"' ∧ ∃ s, parseStrBody '"' t = some (s, r) ∧ v = .str s) ∨
    (c = '\'' ∧ ∃ s, parseStrBody '\'' t = some (s, r) ∧ v = .str s) ∨
    (c = 't' ∧ expectChars ['r', 'u', 'e'] t = some r ∧ v = .bool true) ∨
    (c = 'f' ∧ expectChars ['a', 'l', 's', 'e'] t = some r ∧ v = .bool false) ∨
    (c = 'n' ∧ expectChars ['u', 'l', 'l'] t = some r ∧ v = .null) ∨
    (c = 'T' ∧ expectChars ['r', 'u', 'e'] t = some r ∧ v = .bool true) ∨
    (c = 'F' ∧ expectChars ['a', 'l', 's', 'e'] t = some r ∧ v = .bool false) ∨
    (c = 'N' ∧ expectChars ['o', 'n', 'e'] t = some r ∧ v = .null) ∨
    (c.isDigit = true ∧ parseNumCore false (c :: t) = some (v, r)) ∨
    (c = '-' ∧ parseNumCore true t = some (v, r)) ∨
    (c = '+' ∧ parseNumCore false t = some (v, r)) := by
  unfold parseVal at h
  dsimp only at h
  by_cases hc1 : (c == '[') = true
  ·
    rw [if_pos hc1] at h
    by_cases hb1 : ((t.dropWhile jws).head? == some ']') = true
    · rw [if_pos hb1] at h
      injection h with h
      rw [Prod.mk.injEq] at h
      refine Or.inl ⟨by simpa using hc1, h.1.symm, ?_⟩
      have hd := cons_of_head? (show (t.dropWhile jws).head? = some ']' by simpa using hb1)
      rw [h.2] at hd
      exact hd
    · rw [if_neg hb1] at h
      rcases Option.map_eq_some'.1 h with ⟨⟨vs, r2⟩, hA2, heq⟩
      rw [Prod.mk.injEq] at heq
      exact Or.inr (Or.inl (⟨by simpa using hc1, vs, by rw [← heq.2]; exact hA2, heq.1.symm⟩))
  · rw [if_neg hc1] at h
    by_cases hc2 : (c == '{') = true
    ·
      rw [if_pos hc2] at h
      by_cases hb2 : ((t.dropWhile jws).head? == some '}') = true
      · rw [if_pos hb2] at h
        injection h with h
        rw [Prod.mk.injEq] at h
        refine Or.inr (Or.inr (Or.inl (⟨by simpa using hc2, h.1.symm, ?_⟩)))
        have hd := cons_of_head? (show (t.dropWhile jws).head? = some '}' by simpa using hb2)
        rw [h.2] at hd
        exact hd
      · rw [if_neg hb2] at h
        rcases Option.map_eq_some'.1 h with ⟨⟨ms, r2⟩, hA2, heq⟩
        rw [Prod.mk.injEq] at heq
        exact Or.inr (Or.inr (Or.inr (Or.inl (⟨by simpa using hc2, ms, by rw [← heq.2]; exact hA2, heq.1.symm⟩))))
    · rw [if_neg hc2] at h
      by_cases hc3 : (c == '"') = true
      ·
        rw [if_pos hc3] at h
        rcases Option.map_eq_some'.1 h with ⟨⟨s, r2⟩, hS, heq⟩
        rw [Prod.mk.injEq] at heq
        exact Or.inr (Or.inr (Or.inr (Or.inr (Or.inl (⟨by simpa using hc3, s, by rw [← heq.2]; exact hS, heq.1.symm⟩)))))
      · rw [if_neg hc3] at h
        by_cases hc4 : (perm && c == '\'') = true
        ·
          rw [if_pos hc4] at h
          rcases Option.map_eq_some'.1 h with ⟨⟨s, r2⟩, hS, heq⟩
          rw [Prod.mk.injEq] at heq
          exact Or.inr (Or.inr (Or.inr (Or.inr (Or.inr (Or.inl (⟨by simpa using (Bool.and_eq_true_iff.1 hc4).2, s, by rw [← heq.2]; exact hS, heq.1.symm⟩))))))
        · rw [if_neg hc4] at h
          by_cases hc5 : (!perm && c == 't') = true
          ·
            rw [if_pos hc5] at h
            rcases Option.map_eq_some'.1 h with ⟨r2, hE, heq⟩
            rw [Prod.mk.injEq] at heq
            exact Or.inr (Or.inr (Or.inr (Or.inr (Or.inr (Or.inr (Or.inl (⟨by simpa using (Bool.and_eq_true_iff.1 hc5).2, by rw [← heq.2]; exact hE, heq.1.symm⟩)))))))
          · rw [if_neg hc5] at h
            by_cases hc6 : (!perm && c == 'f') = true
            ·
              rw [if_pos hc6] at h
              rcases Option.map_eq_some'.1 h with ⟨r2, hE, heq⟩
              rw [Prod.mk.injEq] at heq
              exact Or.inr (Or.inr (Or.inr (Or.inr (Or.inr (Or.inr (Or.inr (Or.inl (⟨by simpa using (Bool.and_eq_true_iff.1 hc6).2, by rw [← heq.2]; exact hE, heq.1.symm⟩))))))))
            · rw [if_neg hc6] at h
              by_cases hc7 : (!perm && c == 'n') = true
              ·
                rw [if_pos hc7] at h
                rcases Option.map_eq_some'.1 h with ⟨r2, hE, heq⟩
                rw [Prod.mk.injEq] at heq
                exact Or.inr (Or.inr (Or.inr (Or.inr (Or.inr (Or.inr (Or.inr (Or.inr (Or.inl (⟨by simpa using (Bool.and_eq_true_iff.1 hc7).2, by rw [← heq.2]; exact hE, heq.1.symm⟩)))))))))
              · rw [if_neg hc7] at h
                by_cases hc8 : (perm && c == 'T') = true
                ·
                  rw [if_pos hc8] at h
                  rcases Option.map_eq_some'.1 h with ⟨r2, hE, heq⟩
                  rw [Prod.mk.injEq] at heq
                  exact Or.inr (Or.inr (Or.inr (Or.inr (Or.inr (Or.inr (Or.inr (Or.inr (Or.inr (Or.inl (⟨by simpa using (Bool.and_eq_true_iff.1 hc8).2, by rw [← heq.2]; exact hE, heq.1.symm⟩))))))))))
                · rw [if_neg hc8] at h
                  by_cases hc9 : (perm && c == 'F') = true
                  ·
                    rw [if_pos hc9] at h
                    rcases Option.map_eq_some'.1 h with ⟨r2, hE, heq⟩
                    rw [Prod.mk.injEq] at heq
                    exact Or.inr (Or.inr (Or.inr (Or.inr (Or.inr (Or.inr (Or.inr (Or.inr (Or.inr (Or.inr (Or.inl (⟨by simpa using (Bool.and_eq_true_iff.1 hc9).2, by rw [← heq.2]; exact hE, heq.1.symm⟩)))))))))))
                  · rw [if_neg hc9] at h
                    by_cases hc10 : (perm && c == 'N') = true
                    ·
                      rw [if_pos hc10] at h
                      rcases Option.map_eq_some'.1 h with ⟨r2, hE, heq⟩
                      rw [Prod.mk.injEq] at heq
                      exact Or.inr (Or.inr (Or.inr (Or.inr (Or.inr (Or.inr (Or.inr (Or.inr (Or.inr (Or.inr (Or.inr (Or.inl (⟨by simpa using (Bool.and_eq_true_iff.1 hc10).2, by rw [← heq.2]; exact hE, heq.1.symm⟩))))))))))))
                    · rw [if_neg hc10] at h
                      by_cases hc11 : c.isDigit = true
                      ·
                        rw [if_pos hc11] at h
                        exact Or.inr (Or.inr (Or.inr (Or.inr (Or.inr (Or.inr (Or.inr (Or.inr (Or.inr (Or.inr (Or.inr (Or.inr (Or.inl (⟨hc11, h⟩)))))))))))))
                      · rw [if_neg hc11] at h
                        by_cases hc12 : (c == '-') = true
                        ·
                          rw [if_pos hc12] at h
                          exact Or.inr (Or.inr (Or.inr (Or.inr (Or.inr (Or.inr (Or.inr (Or.inr (Or.inr (Or.inr (Or.inr (Or.inr (Or.inr (Or.inl (⟨by simpa using hc12, h⟩))))))))))))))
                        · rw [if_neg hc12] at h
                          by_cases hc13 : (perm && c == '+') = true
                          ·
                            rw [if_pos hc13] at h
                            exact Or.inr (Or.inr (Or.inr (Or.inr (Or.inr (Or.inr (Or.inr (Or.inr (Or.inr (Or.inr (Or.inr (Or.inr (Or.inr (Or.inr (⟨by simpa using (Bool.and_eq_true_iff.1 hc13).2, h⟩))))))))))))))
                          · rw [if_neg hc13] at h
                            cases h

theorem parseLoopArr_succ_shape {perm : Bool} {f : Nat} {l : List Char}
    {vs : List JVal} {r : List Char}
    (h : parseLoopArr perm (f + 1) l = some (vs, r)) :
    ∃ v r1, parseVal perm f l = some (v, r1) ∧
      ((∃ vs2, parseLoopArr perm f ((r1.dropWhile jws).tail.dropWhile jws)
          = some (vs2, r) ∧ (r1.dropWhile jws).head? = some ',' ∧ vs = v :: vs2) ∨
       ((r1.dropWhile jws).head? = some ']' ∧ r = (r1.dropWhile jws).tail ∧
        vs = [v])) := by
  unfold parseLoopArr at h
  dsimp only at h
  split at h
  · exact Option.noConfusion h
  · next v r1 heq =>
    refine ⟨v, r1, heq, ?_⟩
    by_cases hcm : ((r1.dropWhile jws).head? == some ',') = true
    · rw [if_pos hcm] at h
      rcases Option.map_eq_some'.1 h with ⟨⟨vs2, r2⟩, hL2, hpair⟩
      rw [Prod.mk.injEq] at hpair
      exact Or.inl ⟨vs2, by rw [← hpair.2]; exact hL2, by simpa using hcm,
        hpair.1.symm⟩
    · rw [if_neg hcm] at h
      by_cases hcl : ((r1.dropWhile jws).head? == some ']') = true
      · rw [if_pos hcl] at h
        injection h with h
        rw [Prod.mk.injEq] at h
        exact Or.inr ⟨by simpa using hcl, h.2.symm, h.1.symm⟩
      · rw [if_neg hcl] at h
        exact Option.noConfusion h

theorem parseLoopObj_succ_shape {perm : Bool} {f : Nat} {l : List Char}
    {ms : List (String × JVal)} {r : List Char}
    (h : parseLoopObj perm (f + 1) l = some (ms, r)) :
    ∃ k r1, ((l.head? = some '"' ∧ parseStrBody '"' l.tail = some (k, r1)) ∨
             (l.head? = some '\'' ∧ parseStrBody '\'' l.tail = some (k, r1))) ∧
      (r1.dropWhile jws).head? = some ':' ∧
      ∃ v r5, parseVal perm f ((r1.dropWhile jws).tail.dropWhile jws) = some (v, r5) ∧
        ((∃ ms2, parseLoopObj perm f ((r5.dropWhile jws).tail.dropWhile jws)
            = some (ms2, r) ∧ (r5.dropWhile jws).head? = some ',' ∧
            ms = (k, v) :: ms2) ∨
         ((r5.dropWhile jws).head? = some '}' ∧ r = (r5.dropWhile jws).tail ∧
          ms = [(k, v)])) := by
  unfold parseLoopObj at h
  dsimp only at h
  split at h
  · exact Option.noConfusion h
  · next k r1 heqk =>
    have hkey : (l.head? = some '"' ∧ parseStrBody '"' l.tail = some (k, r1)) ∨
        (l.head? = some '\'' ∧ parseStrBody '\'' l.tail = some (k, r1)) := by
      by_cases hq1 : (l.head? == some '"') = true
      · rw [if_pos hq1] at heqk
        exact Or.inl ⟨by simpa using hq1, heqk⟩
      · rw [if_neg hq1] at heqk
        by_cases hq2 : (perm && (l.head? == some '\'')) = true
        · rw [if_pos hq2] at heqk
          exact Or.inr ⟨by simpa using (Bool.and_eq_true_iff.1 hq2).2, heqk⟩
        · rw [if_neg hq2] at heqk
          exact Option.noConfusion heqk
    refine ⟨k, r1, hkey, ?_⟩
    by_cases hcol : ((r1.dropWhile jws).head? == some ':') = true
    · refine ⟨by simpa using hcol, ?_⟩
      rw [if_pos hcol] at h
      split at h
      · exact Option.noConfusion h
      · next v r5 heqv =>
        refine ⟨v, r5, heqv, ?_⟩
        by_cases hcm : ((r5.dropWhile jws).head? == some ',') = true
        · rw [if_pos hcm] at h
          rcases Option.map_eq_some'.1 h with ⟨⟨ms2, r2⟩, hL2, hpair⟩
          rw [Prod.mk.injEq] at hpair
          exact Or.inl ⟨ms2, by rw [← hpair.2]; exact hL2, by simpa using hcm,
            hpair.1.symm⟩
        · rw [if_neg hcm] at h
          by_cases hcl : ((r5.dropWhile jws).head? == some '}') = true
          · rw [if_pos hcl] at h
            injection h with h
            rw [Prod.mk.injEq] at h
            exact Or.inr ⟨by simpa using hcl, h.2.symm, h.1.symm⟩
          · rw [if_neg hcl] at h
            exact Option.noConfusion h
    · rw [if_neg hcol] at h
      exact Option.noConfusion h

theorem list_split_tw {p : Char → Bool} {l rest : List Char}
    (h : l.dropWhile p = rest) : l = l.takeWhile p ++ rest := by
  rw [← h]
  exact (takeWhile_append_dropWhile_eq l).symm

theorem parseConsumed (perm : Bool) : ∀ f : Nat,
    (∀ l v r, parseVal perm f l = some (v, r) →
      ∃ p e, l = p ++ e :: r ∧ pws e = false) ∧
    (∀ l vs r, parseLoopArr perm f l = some (vs, r) → ∃ p, l = p ++ ']' :: r) ∧
    (∀ l ms r, parseLoopObj perm f l = some (ms, r) → ∃ p, l = p ++ '}' :: r) := by
  intro f
  induction f with
  | zero =>
    refine ⟨?_, ?_, ?_⟩
    · intro l v r h; simp [parseVal] at h
    · intro l vs r h; simp [parseLoopArr] at h
    · intro l ms r h; simp [parseLoopObj] at h
  | succ f ih =>
    obtain ⟨ihV, ihA, ihO⟩ := ih
    refine ⟨?_, ?_, ?_⟩
    · -- parseVal
      intro l v r h
      cases l with
      | nil => simp [parseVal] at h
      | cons c t =>
        rcases parseVal_succ_shape h with
          ⟨hc, hv, hdw⟩ | ⟨hc, vs, hL, hv⟩ | ⟨hc, hv, hdw⟩ | ⟨hc, ms, hL, hv⟩ |
          ⟨hc, s, hS, hv⟩ | ⟨hc, s, hS, hv⟩ | ⟨hc, hE, hv⟩ | ⟨hc, hE, hv⟩ |
          ⟨hc, hE, hv⟩ | ⟨hc, hE, hv⟩ | ⟨hc, hE, hv⟩ | ⟨hc, hE, hv⟩ |
          ⟨hd, hn⟩ | ⟨hc, hn⟩ | ⟨hc, hn⟩
        · subst hc
          refine ⟨'[' :: t.takeWhile jws, ']', ?_, by decide⟩
          conv_lhs => rw [list_split_tw hdw]
          simp
        · subst hc
          obtain ⟨q, hq⟩ := ihA _ _ _ hL
          refine ⟨'[' :: (t.takeWhile jws ++ q), ']', ?_, by decide⟩
          conv_lhs => rw [list_split_tw hq]
          simp
        · subst hc
          refine ⟨'{' :: t.takeWhile jws, '}', ?_, by decide⟩
          conv_lhs => rw [list_split_tw hdw]
          simp
        · subst hc
          obtain ⟨q, hq⟩ := ihO _ _ _ hL
          refine ⟨'{' :: (t.takeWhile jws ++ q), '}', ?_, by decide⟩
          conv_lhs => rw [list_split_tw hq]
          simp
        · subst hc
          obtain ⟨b, hb⟩ := parseStrBody_decomp hS
          refine ⟨'"' :: b, '"', ?_, by decide⟩
          conv_lhs => rw [hb]
          simp
        · subst hc
          obtain ⟨b, hb⟩ := parseStrBody_decomp hS
          refine ⟨'\'' :: b, '\'', ?_, by decide⟩
          conv_lhs => rw [hb]
          simp
        · subst hc
          rw [expectChars_decomp hE]
          exact ⟨['t', 'r', 'u'], 'e', by simp, by decide⟩
        · subst hc
          rw [expectChars_decomp hE]
          exact ⟨['f', 'a', 'l', 's'], 'e', by simp, by decide⟩
        · subst hc
          rw [expectChars_decomp hE]
          exact ⟨['n', 'u', 'l'], 'l', by simp, by decide⟩
        · subst hc
          rw [expectChars_decomp hE]
          exact ⟨['T', 'r', 'u'], 'e', by simp, by decide⟩
        · subst hc
          rw [expectChars_decomp hE]
          exact ⟨['F', 'a', 'l', 's'], 'e', by simp, by decide⟩
        · subst hc
          rw [expectChars_decomp hE]
          exact ⟨['N', 'o', 'n'], 'e', by simp, by decide⟩
        · exact parseNumCore_decomp hn
        · subst hc
          obtain ⟨p, e, hp, he⟩ := parseNumCore_decomp hn
          refine ⟨'-' :: p, e, ?_, he⟩
          conv_lhs => rw [hp]
          simp
        · subst hc
          obtain ⟨p, e, hp, he⟩ := parseNumCore_decomp hn
          refine ⟨'+' :: p, e, ?_, he⟩
          conv_lhs => rw [hp]
          simp
    · -- parseLoopArr
      intro l vs r h
      rcases parseLoopArr_succ_shape h with ⟨v, r1, hV, hrest⟩
      obtain ⟨p, e, hp, _⟩ := ihV _ _ _ hV
      rcases hrest with ⟨vs2, hL2, hcm, _⟩ | ⟨hcl, hr, _⟩
      · obtain ⟨q, hq⟩ := ihA _ _ _ hL2
        have e1 : r1 = r1.takeWhile jws ++ ',' :: (r1.dropWhile jws).tail :=
          decompose_at_head hcm
        have e2 : (r1.dropWhile jws).tail
            = ((r1.dropWhile jws).tail).takeWhile jws ++ (q ++ ']' :: r) :=
          list_split_tw hq
        refine ⟨p ++ e :: (r1.takeWhile jws
          ++ ',' :: (((r1.dropWhile jws).tail).takeWhile jws ++ q)), ?_⟩
        conv_lhs => rw [hp, e1, e2]
        simp
      · have e1 : r1 = r1.takeWhile jws ++ ']' :: (r1.dropWhile jws).tail :=
          decompose_at_head hcl
        rw [← hr] at e1
        refine ⟨p ++ e :: r1.takeWhile jws, ?_⟩
        conv_lhs => rw [hp, e1]
        simp
    · -- parseLoopObj
      intro l ms r h
      rcases parseLoopObj_succ_shape h with ⟨k, r1, hkey, hcol, v, r5, hV, hrest⟩
      have hl : ∃ pk qk, l = pk ++ qk :: r1 := by
        rcases hkey with ⟨hh, hS⟩ | ⟨hh, hS⟩ <;>
          obtain ⟨b, hb⟩ := parseStrBody_decomp hS
        · refine ⟨'"' :: b, '"', ?_⟩
          rw [cons_of_head? hh, hb]
          simp
        · refine ⟨'\'' :: b, '\'', ?_⟩
          rw [cons_of_head? hh, hb]
          simp
      obtain ⟨pk, qk, hpk⟩ := hl
      have e1 : r1 = r1.takeWhile jws ++ ':' :: (r1.dropWhile jws).tail :=
        decompose_at_head hcol
      obtain ⟨p2, e2c, hp2, _⟩ := ihV _ _ _ hV
      have e2 : (r1.dropWhile jws).tail
          = ((r1.dropWhile jws).tail).takeWhile jws ++ (p2 ++ e2c :: r5) :=
        list_split_tw hp2
      rcases hrest with ⟨ms2, hL2, hcm, _⟩ | ⟨hcl, hr, _⟩
      · obtain ⟨q, hq⟩ := ihO _ _ _ hL2
        have e3 : r5 = r5.takeWhile jws ++ ',' :: (r5.dropWhile jws).tail :=
          decompose_at_head hcm
        have e4 : (r5.dropWhile jws).tail
            = ((r5.dropWhile jws).tail).takeWhile jws ++ (q ++ '}' :: r) :=
          list_split_tw hq
        refine ⟨pk ++ qk :: (r1.takeWhile jws
          ++ ':' :: (((r1.dropWhile jws).tail).takeWhile jws
          ++ (p2 ++ e2c :: (r5.takeWhile jws
          ++ ',' :: (((r5.dropWhile jws).tail).takeWhile jws ++ q))))), ?_⟩
        conv_lhs => rw [hpk, e1, e2, e3, e4]
        simp
      · have e3 : r5 = r5.takeWhile jws ++ '}' :: (r5.dropWhile jws).tail :=
          decompose_at_head hcl
        rw [← hr] at e3
        refine ⟨pk ++ qk :: (r1.takeWhile jws
          ++ ':' :: (((r1.dropWhile jws).tail).takeWhile jws
          ++ (p2 ++ e2c :: r5.takeWhile jws))), ?_⟩
        conv_lhs => rw [hpk, e1, e2, e3]
        simp

theorem parseVal_none_of_pws {perm : Bool} {f : Nat} {c : Char} {t : List Char}
    (hc : pws c = true) : parseVal perm f (c :: t) = none := by
  cases f with
  | zero => rfl
  | succ f =>
    simp only [pws, jws, Bool.or_eq_true, beq_iff_eq] at hc
    rcases hc with ((((h | h) | h) | h) | h) | h <;> subst h <;>
      simp [parseVal, Char.isDigit]

theorem parseVal_none_btick {perm : Bool} {f : Nat} {t : List Char} :
    parseVal perm f (btick :: t) = none := by
  cases f with
  | zero => rfl
  | succ f => simp [parseVal, btick, Char.isDigit]

theorem parseVal_head_not_pws {perm : Bool} {f : Nat} {l : List Char} {v : JVal}
    {r : List Char} (h : parseVal perm f l = some (v, r)) :
    ∃ c t, l = c :: t ∧ pws c = false := by
  cases f with
  | zero => simp [parseVal] at h
  | succ f =>
    cases l with
    | nil => simp [parseVal] at h
    | cons c t =>
      refine ⟨c, t, rfl, ?_⟩
      cases hc : pws c with
      | false => rfl
      | true => rw [parseVal_none_of_pws hc] at h; cases h

theorem parseNumCore_num {neg : Bool} {l r : List Char} {v : JVal}
    (h : parseNumCore neg l = some (v, r)) : ∃ ds fp, v = .num neg ds fp := by
  unfold parseNumCore at h
  dsimp only at h
  split_ifs at h with h1 h2 h3 h4 <;>
    · injection h with h
      rw [Prod.mk.injEq] at h
      exact ⟨_, _, h.1.symm⟩

theorem parseVal_arr_head {perm : Bool} {f : Nat} {l : List Char} {vs : List JVal}
    {r : List Char} (h : parseVal perm f l = some (.arr vs, r)) :
    ∃ t, l = '[' :: t := by
  cases f with
  | zero => simp [parseVal] at h
  | succ f =>
    cases l with
    | nil => simp [parseVal] at h
    | cons c t =>
      rcases parseVal_succ_shape h with
        ⟨hc, _⟩ | ⟨hc, _⟩ | ⟨_, hv, _⟩ | ⟨_, ms, _, hv⟩ | ⟨_, s, _, hv⟩ |
        ⟨_, s, _, hv⟩ | ⟨_, _, hv⟩ | ⟨_, _, hv⟩ | ⟨_, _, hv⟩ | ⟨_, _, hv⟩ |
        ⟨_, _, hv⟩ | ⟨_, _, hv⟩ | ⟨_, hn⟩ | ⟨_, hn⟩ | ⟨_, hn⟩
      · exact ⟨t, by rw [hc]⟩
      · exact ⟨t, by rw [hc]⟩
      · simp at hv
      · simp at hv
      · simp at hv
      · simp at hv
      · simp at hv
      · simp at hv
      · simp at hv
      · simp at hv
      · simp at hv
      · simp at hv
      · obtain ⟨ds, fp, hx⟩ := parseNumCore_num hn
        simp at hx
      · obtain ⟨ds, fp, hx⟩ := parseNumCore_num hn
        simp at hx
      · obtain ⟨ds, fp, hx⟩ := parseNumCore_num hn
        simp at hx

/-! ## Top-level acceptance versus `str.strip()` -/

theorem loadsCore_cases {perm : Bool} {l : List Char} {v : JVal}
    (h : loadsCore perm l = some v) :
    parseVal perm (4 * (stripEnds jws l).length + 4) (stripEnds jws l)
      = some (v, []) := by
  unfold loadsCore at h
  dsimp only at h
  split at h
  · next heq =>
    injection h with h
    rw [h] at heq
    exact heq
  · exact Option.noConfusion h

/-- The whitespace-transport lemma: if a parse accepts a text, Python's
`str.strip()` of that text is exactly the `jws`-stripped core, and the
parse accepts the stripped text with the same value. -/
theorem loadsCore_pstrip {perm : Bool} {l : List Char} {v : JVal}
    (h : loadsCore perm l = some v) :
    pstrip l = stripEnds jws l ∧ loadsCore perm (pstrip l) = some v := by
  have hp := loadsCore_cases h
  obtain ⟨c, t, hcore, hc⟩ := parseVal_head_not_pws hp
  obtain ⟨p, e, hpe, he⟩ := (parseConsumed perm _).1 _ _ _ hp
  have hlast : stripEnds jws l = p ++ [e] := by simpa using hpe
  have hps : pstrip l = stripEnds jws l := pstrip_eq_core rfl hcore hc hlast he
  refine ⟨hps, ?_⟩
  unfold loadsCore
  dsimp only
  have hse : stripEnds jws (pstrip l) = stripEnds jws l := by
    rw [hps]
    exact stripEnds_eq_self hcore (jws_eq_false_of_pws hc) hlast
      (jws_eq_false_of_pws he)
  rw [hse, hp]

theorem loadsCore_arr_core {perm : Bool} {l : List Char} {vs : List JVal}
    (h : loadsCore perm l = some (.arr vs)) :
    ∃ t, stripEnds jws l = '[' :: t :=
  parseVal_arr_head (loadsCore_cases h)

theorem fence_not_prefix_of_head {c : Char} (hc : (c == btick) = false)
    (t : List Char) : fenceMarker.isPrefixOf (c :: t) = false := by
  have hne : btick ≠ c := by
    intro he
    rw [← he] at hc
    simp at hc
  simp [fenceMarker, List.isPrefixOf, hne]

/-- Claim C1: if a text is valid strict (JSON-like) literal syntax for a
list of mapping objects — formalized as acceptance by the embedded
`json.loads` with a list-of-dicts value — then the full fallback chain
succeeds on that text with exactly that value. -/
theorem claim_C1_strict_literal_roundtrip (txt : String) (v : JVal)
    (hjson : jsonLoads txt = some v) (hshape : isListOfDicts v = true) :
    parseChain txt = some v := by
  obtain ⟨vs, rfl⟩ : ∃ vs, v = JVal.arr vs := by
    cases v <;> first | exact ⟨_, rfl⟩ | (exfalso; simp [isListOfDicts] at hshape)
  obtain ⟨hps, hloads⟩ := loadsCore_pstrip hjson
  obtain ⟨t, hcore⟩ := loadsCore_arr_core hjson
  have hfence : fenceMarker.isPrefixOf (pstrip txt.data) = false := by
    rw [hps, hcore]
    exact fence_not_prefix_of_head (by decide) t
  have hclean : cleanText txt = pstripStr txt := by
    show String.mk (cleanList txt.data) = pstripStr txt
    rw [cleanList_no_fence hfence]
    rfl
  have hm1 : jsonLoads (pstripStr txt) = some (JVal.arr vs) := hloads
  unfold parseChain
  dsimp only
  rw [hclean, hm1]

theorem claim_C1_strict_literal_roundtrip_witness :
    jsonLoads " [\x7b\"a\": true\x7d, \x7b\"b\": 0\x7d] "
      = some (.arr [.obj [("a", .bool true)], .obj [("b", .num false ['0'] none)]]) ∧
    isListOfDicts (.arr [.obj [("a", .bool true)],
      .obj [("b", .num false ['0'] none)]]) = true ∧
    parseChain " [\x7b\"a\": true\x7d, \x7b\"b\": 0\x7d] "
      = some (.arr [.obj [("a", .bool true)], .obj [("b", .num false ['0'] none)]]) :=
  ⟨rfl, rfl,
   claim_C1_strict_literal_roundtrip " [\x7b\"a\": true\x7d, \x7b\"b\": 0\x7d] "
     (.arr [.obj [("a", .bool true)], .obj [("b", .num false ['0'] none)]]) rfl rfl⟩

/-! ## Regex-rescue facts (claim C7) -/

theorem matchPat_pref {l m : List Char} (h : matchPat l = some m) :
    ∃ rest, l = m ++ rest := by
  unfold matchPat at h
  dsimp only at h
  split_ifs at h with g1 g2 g3 g4
  injection h with h
  refine ⟨((((l.tail.dropWhile pws).tail.dropWhile
    (fun c => !(c == '}'))).tail.dropWhile pws)).tail, ?_⟩
  rw [← h]
  conv_lhs => rw [cons_of_head? (show l.head? = some '[' by simpa using g1)]
  conv_lhs =>
    rw [decompose_at_head (p := pws)
      (show (l.tail.dropWhile pws).head? = some '{' by simpa using g2)]
  conv_lhs =>
    rw [decompose_at_head
      (show (((l.tail.dropWhile pws).tail).dropWhile
        (fun c => !(c == '}'))).head? = some '}' by simpa using g3)]
  conv_lhs =>
    rw [decompose_at_head (p := pws)
      (show ((((l.tail.dropWhile pws).tail).dropWhile
        (fun c => !(c == '}'))).tail.dropWhile pws).head? = some ']'
       by simpa using g4)]
  simp

theorem ffp_leftmost {l m : List Char} (h : ffp l = some m) :
    ∃ pre rest, l = pre ++ (m ++ rest) ∧ matchPat (m ++ rest) = some m ∧
      ∀ j, j < pre.length → matchPat (l.drop j) = none := by
  induction l with
  | nil =>
    rw [show ffp [] = none from rfl] at h
    cases h
  | cons c t ih =>
    unfold ffp at h
    cases hm : matchPat (c :: t) with
    | some m2 =>
      rw [hm] at h
      dsimp only at h
      injection h with h
      subst h
      obtain ⟨rest, hrest⟩ := matchPat_pref hm
      refine ⟨[], rest, by simpa using hrest, by rw [← hrest]; exact hm, ?_⟩
      intro j hj
      simp at hj
    | none =>
      rw [hm] at h
      dsimp only at h
      obtain ⟨pre, rest, hp, hmp, hnone⟩ := ih h
      refine ⟨c :: pre, rest, by rw [List.cons_append, ← hp], hmp, ?_⟩
      intro j hj
      cases j with
      | zero => simpa using hm
      | succ j2 =>
        have := hnone j2 (by simpa using hj)
        simpa using this

/-- Claim C7: when the first four strategies fail, the chain's result is the
regex rescue on the original text; the rescue's input is the leftmost
substring of the shape `[ \s* { [^}]* } \s* ]`, to which the strict and
then the permissive parse are applied. -/
theorem claim_C7_regex_rescue (txt : String)
    (h1 : jsonLoads (cleanText txt) = none)
    (h2 : astLiteralEval (cleanText txt) = none)
    (h3 : jsonLoads txt = none) (h4 : astLiteralEval txt = none) :
    parseChain txt = rescueParse txt ∧
    ∀ m, ffp txt.data = some m →
      ∃ pre rest, txt.data = pre ++ (m ++ rest) ∧ matchPat (m ++ rest) = some m ∧
        ∀ j, j < pre.length → matchPat (txt.data.drop j) = none := by
  constructor
  · unfold parseChain
    dsimp only
    rw [h1, h2, h3, h4]
  · intro m hm
    exact ffp_leftmost hm

theorem claim_C7_regex_rescue_witness :
    jsonLoads (cleanText "x [ \x7b\"a\": 1\x7d ] y") = none ∧
    astLiteralEval (cleanText "x [ \x7b\"a\": 1\x7d ] y") = none ∧
    jsonLoads "x [ \x7b\"a\": 1\x7d ] y" = none ∧
    astLiteralEval "x [ \x7b\"a\": 1\x7d ] y" = none ∧
    parseChain "x [ \x7b\"a\": 1\x7d ] y" = rescueParse "x [ \x7b\"a\": 1\x7d ] y" ∧
    rescueParse "x [ \x7b\"a\": 1\x7d ] y"
      = some (.arr [.obj [("a", .num false ['1'] none)]]) :=
  ⟨rfl, rfl, rfl, rfl,
   (claim_C7_regex_rescue "x [ \x7b\"a\": 1\x7d ] y" rfl rfl rfl rfl).1, rfl⟩

theorem wrap_data (s : String) :
    (wrapFenced s).data = "```python\n".data ++ s.data ++ "\n```".data := by
  cases s
  rfl

theorem pstrip_boundary {l : List Char} (hne : pstrip l ≠ []) :
    ∃ c t q e, pstrip l = c :: t ∧ pws c = false ∧ pstrip l = q ++ [e] ∧
      pws e = false := by
  have hdt : dropTrail pws (l.dropWhile pws) = pstrip l := rfl
  rcases h : pstrip l with _ | ⟨c, t⟩
  · exact absurd h hne
  · have hc : pws c = false := by
      obtain ⟨suf, hsuf, _⟩ := dropTrail_decomp pws (l.dropWhile pws)
      rw [hdt, h] at hsuf
      exact dropWhile_head_neg (t := t ++ suf) (by rw [hsuf]; simp)
    rcases dropTrail_last pws (l.dropWhile pws) with h0 | ⟨q, e, hq, he⟩
    · rw [hdt, h] at h0; cases h0
    · rw [hdt, h] at hq
      exact ⟨c, t, q, e, rfl, hc, hq, he⟩

theorem takeWhile_append_all {p : Char → Bool} {a : List Char} (b : List Char)
    (h : ∀ c ∈ a, p c = true) : (a ++ b).takeWhile p = a ++ b.takeWhile p := by
  induction a with
  | nil => rfl
  | cons x xs ih =>
    have hx : p x = true := h x (by simp)
    simp only [List.cons_append, List.takeWhile_cons, hx, if_true]
    rw [ih (fun c hc => h c (by simp [hc]))]

theorem dropWhile_append_pos {p : Char → Bool} {a : List Char} {c : Char}
    {rest : List Char} (h : a.dropWhile p = c :: rest) (s : List Char) :
    (a ++ s).dropWhile p = c :: (rest ++ s) := by
  have hnp : p c = false := dropWhile_head_neg h
  have ha : a = a.takeWhile p ++ (c :: rest) := by
    conv_lhs => rw [← takeWhile_append_dropWhile_eq (p := p) a, h]
  conv_lhs => rw [ha]
  rw [List.append_assoc, dropWhile_append_all _ (takeWhile_all a)]
  simp only [List.cons_append]
  exact dropWhile_cons_neg _ hnp

theorem takeWhile_append_pos {p : Char → Bool} {a : List Char} {c : Char}
    {rest : List Char} (h : a.dropWhile p = c :: rest) (s : List Char) :
    (a ++ s).takeWhile p = a.takeWhile p := by
  have hnp : p c = false := dropWhile_head_neg h
  have ha : a = a.takeWhile p ++ (c :: rest) := by
    conv_lhs => rw [← takeWhile_append_dropWhile_eq (p := p) a, h]
  conv_lhs => rw [ha]
  rw [List.append_assoc, takeWhile_append_all _ (takeWhile_all a)]
  simp [List.takeWhile, hnp]

theorem dropWhile_append_nil {p : Char → Bool} {a : List Char}
    (h : a.dropWhile p = []) (s : List Char) :
    (a ++ s).dropWhile p = s.dropWhile p :=
  dropWhile_append_all s (List.dropWhile_eq_nil_iff.1 h)

theorem splitNl_ne_nil (l : List Char) : splitNl l ≠ [] := by
  cases l with
  | nil => simp [splitNl]
  | cons c t =>
    unfold splitNl
    by_cases h : (c == '\n') = true
    · simp [h]
    · cases hs : splitNl t <;> simp [h, hs]

theorem joinNl_splitNl (l : List Char) : joinNl (splitNl l) = l := by
  induction l with
  | nil => rfl
  | cons c t ih =>
    unfold splitNl
    by_cases h : (c == '\n') = true
    · rw [if_pos h]
      have hc : c = '\n' := by simpa using h
      cases hs : splitNl t with
      | nil => exact absurd hs (splitNl_ne_nil t)
      | cons h0 r =>
        show joinNl ([] :: h0 :: r) = c :: t
        rw [hc]
        show '\n' :: joinNl (h0 :: r) = '\n' :: t
        rw [← hs, ih]
    · rw [if_neg h]
      cases hs : splitNl t with
      | nil => exact absurd hs (splitNl_ne_nil t)
      | cons h0 r =>
        dsimp only
        cases r with
        | nil =>
          show joinNl [c :: h0] = c :: t
          have h0t : h0 = t := by
            have := ih
            rw [hs] at this
            exact this
          show c :: h0 = c :: t
          rw [h0t]
        | cons r1 r2 =>
          show joinNl ((c :: h0) :: r1 :: r2) = c :: t
          have hI : joinNl (h0 :: r1 :: r2) = t := by
            rw [← hs]
            exact ih
          show (c :: h0) ++ '\n' :: joinNl (r1 :: r2) = c :: t
          rw [← hI]
          rfl

theorem splitNl_pref {a : List Char} (x : List Char)
    (h : ∀ c ∈ a, (c == '\n') = false) :
    splitNl (a ++ '\n' :: x) = a :: splitNl x := by
  induction a with
  | nil => simp [splitNl]
  | cons c a2 ih =>
    have hc := h c (by simp)
    have hrec := ih (fun d hd => h d (by simp [hd]))
    show splitNl (c :: (a2 ++ '\n' :: x)) = (c :: a2) :: splitNl x
    rw [splitNl, if_neg (by simp [hc]), hrec]

theorem mem_stripEnds {p : Char → Bool} {l : List Char} {c : Char}
    (h : c ∈ stripEnds p l) : c ∈ l := by
  unfold stripEnds dropTrail at h
  rw [List.mem_reverse] at h
  have h2 : c ∈ (l.dropWhile p).reverse := (List.dropWhile_sublist p).subset h
  rw [List.mem_reverse] at h2
  exact (List.dropWhile_sublist p).subset h2

theorem pws_not_bracket {c : Char} (h : pws c = true) : (c == '[') = false := by
  cases hb : (c == '[') with
  | false => rfl
  | true =>
    have hc : c = '[' := by simpa using hb
    rw [hc] at h
    exact absurd h (by decide)

theorem matchPat_none_head {c : Char} (t : List Char) (hc : (c == '[') = false) :
    matchPat (c :: t) = none := by
  unfold matchPat
  rw [if_neg (by simp [hc])]

theorem ffp_none_of_no_bracket {l : List Char}
    (h : ∀ c ∈ l, (c == '[') = false) : ffp l = none := by
  induction l with
  | nil => rfl
  | cons c t ih =>
    unfold ffp
    rw [matchPat_none_head t (h c (by simp))]
    exact ih (fun d hd => h d (by simp [hd]))

theorem wrap_head (s : String) :
    (wrapFenced s).data
      = btick :: ("``python\n".data ++ s.data ++ "\n```".data) := by
  rw [wrap_data, show "```python\n".data = btick :: "``python\n".data from by decide]
  simp

theorem wrap_last (s : String) :
    (wrapFenced s).data
      = ("```python\n".data ++ s.data ++ "\n``".data) ++ [btick] := by
  rw [wrap_data, show "\n```".data = "\n``".data ++ [btick] from by decide]
  simp

theorem pstrip_wrap (s : String) :
    pstrip (wrapFenced s).data = (wrapFenced s).data :=
  stripEnds_eq_self (wrap_head s) (by decide) (wrap_last s) (by decide)

theorem stripJws_wrap (s : String) :
    stripEnds jws (wrapFenced s).data = (wrapFenced s).data :=
  stripEnds_eq_self (wrap_head s) (by decide) (wrap_last s) (by decide)

theorem fence_prefix_wrap (s : String) :
    fenceMarker.isPrefixOf (wrapFenced s).data = true := by
  apply List.isPrefixOf_iff_prefix.2
  refine ⟨"python\n".data ++ s.data ++ "\n```".data, ?_⟩
  rw [wrap_data, show "```python\n".data = fenceMarker ++ "python\n".data from by decide]
  simp

theorem wrap_length (s : String) :
    (wrapFenced s).data.length = s.data.length + 14 := by
  rw [wrap_data]
  simp [List.length_append]

theorem loadsCore_wrap_none (perm : Bool) (s : String) :
    loadsCore perm (wrapFenced s).data = none := by
  unfold loadsCore
  dsimp only
  rw [stripJws_wrap]
  conv_lhs => rw [wrap_head s, parseVal_none_btick]

theorem loadsCore_none_of_all_pws {perm : Bool} {l : List Char}
    (h : ∀ c ∈ l, pws c = true) : loadsCore perm l = none := by
  unfold loadsCore
  dsimp only
  cases hc : stripEnds jws l with
  | nil => rfl
  | cons c t =>
    have hcm : c ∈ l := mem_stripEnds (by rw [hc]; exact List.mem_cons_self c t)
    conv_lhs => rw [parseVal_none_of_pws (h c hcm)]

theorem parseChain_pstrip_ne_nil {txt : String} {v : JVal}
    (h : parseChain txt = some v) : pstrip txt.data ≠ [] := by
  intro hnil
  have hall : ∀ c ∈ txt.data, pws c = true := pstrip_nil_all hnil
  have hclean : cleanText txt = "" := by
    show String.mk (cleanList txt.data) = ""
    unfold cleanList
    dsimp only
    rw [hnil]
    rfl
  have h1 : jsonLoads (cleanText txt) = none := by rw [hclean]; rfl
  have h2 : astLiteralEval (cleanText txt) = none := by rw [hclean]; rfl
  have h3 : jsonLoads txt = none := loadsCore_none_of_all_pws hall
  have h4 : astLiteralEval txt = none := loadsCore_none_of_all_pws hall
  have h5 : rescueParse txt = none := by
    unfold rescueParse
    rw [ffp_none_of_no_bracket (fun c hc => pws_not_bracket (hall c hc))]
  unfold parseChain at h
  dsimp only at h
  rw [h1] at h
  dsimp only at h
  rw [h2] at h
  dsimp only at h
  rw [h3] at h
  dsimp only at h
  rw [h4] at h
  dsimp only at h
  rw [h5] at h
  cases h

theorem rfind_wrap (s : String) :
    rfindSub (wrapFenced s).data fenceMarker = some (s.data.length + 11) := by
  have hW : (wrapFenced s).data
      = ("```python\n".data ++ s.data ++ "\n".data) ++ fenceMarker := by
    rw [wrap_data, show "\n```".data = "\n".data ++ fenceMarker from by decide]
    simp
  have hlen : ("```python\n".data ++ s.data ++ "\n".data).length
      = s.data.length + 11 := by
    simp [List.length_append]
  have hocc : occursAt (wrapFenced s).data fenceMarker (s.data.length + 11) = true := by
    unfold occursAt
    rw [hW, ← hlen, List.drop_left]
    decide
  have hmax : ∀ i, s.data.length + 11 < i →
      occursAt (wrapFenced s).data fenceMarker i = false := by
    intro i hi
    apply occursAt_false_of_long (by decide)
    rw [wrap_length]
    have h3 : fenceMarker.length = 3 := rfl
    omega
  exact rfindAux_eq_of_max hocc hmax ((wrapFenced s).data.length + 1)
    (by rw [wrap_length]; omega)

theorem pstrip_tagged_content {pre M suf : List Char} {c e : Char} {t q : List Char}
    (_hpre : ∀ x ∈ pre, pws x = true) (hsuf : ∀ x ∈ suf, pws x = true)
    (_hhead : M = c :: t) (_hc : pws c = false)
    (hlast : M = q ++ [e]) (he : pws e = false) :
    pstrip ("python\n".data ++ (pre ++ M ++ suf) ++ ['\n'])
      = "python".data ++ '\n' :: (pre ++ M) := by
  unfold pstrip stripEnds
  have hX : "python\n".data ++ (pre ++ M ++ suf) ++ ['\n']
      = 'p' :: ("ython\n".data ++ (pre ++ M ++ suf) ++ ['\n']) := by
    rw [show ("python\n".data : List Char) = 'p' :: "ython\n".data from by decide]
    rfl
  rw [hX, dropWhile_cons_neg _ (by decide), ← hX]
  have hX2 : "python\n".data ++ (pre ++ M ++ suf) ++ ['\n']
      = ((("python\n".data ++ pre) ++ q) ++ [e]) ++ (suf ++ ['\n']) := by
    rw [hlast]
    simp
  rw [hX2, dropTrail_append_all pws _ (fun x hx => by
    rcases List.mem_append.1 hx with hxx | hxx
    · exact hsuf x hxx
    · simp at hxx
      rw [hxx]
      decide)]
  rw [dropTrail_concat _ he]
  rw [show ((("python\n".data ++ pre) ++ q) ++ [e] : List Char)
      = "python\n".data ++ (pre ++ (q ++ [e])) from by simp]
  rw [← hlast, show ("python\n".data : List Char) = "python".data ++ ['\n'] from by decide]
  simp

theorem pstrip_pws_pref {pre M : List Char} {c e : Char} {t q : List Char}
    (hpre : ∀ x ∈ pre, pws x = true) (hhead : M = c :: t) (hc : pws c = false)
    (hlast : M = q ++ [e]) (he : pws e = false) :
    pstrip (pre ++ M) = M := by
  unfold pstrip stripEnds
  rw [dropWhile_append_all _ hpre, hhead, dropWhile_cons_neg _ hc, ← hhead, hlast]
  exact dropTrail_concat q he

/-- Cleaning the tag-fenced wrapping of a (non-whitespace) text yields
exactly the stripped original text: the outer fences are removed and the
`python` tag line is dropped. -/
theorem cleanText_wrap (s : String) (hne : pstrip s.data ≠ []) :
    cleanText (wrapFenced s) = pstripStr s := by
  obtain ⟨c, t, q, e, hhead, hc, hlast, he⟩ := pstrip_boundary hne
  obtain ⟨pre, suf, hsd0, hpre, hsuf⟩ := stripEnds_decomp pws s.data
  have hsd : s.data = pre ++ pstrip s.data ++ suf := hsd0
  have hdrop : (wrapFenced s).data.drop (0 + 3)
      = "python\n".data ++ s.data ++ "\n```".data := by
    rw [wrap_data, show "```python\n".data = "```".data ++ "python\n".data from by decide]
    simp only [List.append_assoc]
    rw [show (0 + 3 : Nat) = ("```".data : List Char).length from by decide]
    rw [List.drop_left]
  have htake : ("python\n".data ++ s.data ++ "\n```".data).take
        (s.data.length + 11 - (0 + 3))
      = "python\n".data ++ s.data ++ ['\n'] := by
    have harith : s.data.length + 11 - (0 + 3) = s.data.length + 8 := by omega
    rw [harith]
    rw [show ("\n```".data : List Char) = ['\n'] ++ "```".data from by decide]
    rw [show ("python\n".data ++ s.data ++ (['\n'] ++ "```".data) : List Char)
        = ("python\n".data ++ s.data ++ ['\n']) ++ "```".data from by simp]
    rw [List.take_left' (by simp [List.length_append])]
  show String.mk (cleanList (wrapFenced s).data) = pstripStr s
  unfold cleanList
  dsimp only
  rw [pstrip_wrap, fence_prefix_wrap, if_pos rfl]
  rw [findSub_zero_of_pref (fence_prefix_wrap s), rfind_wrap s]
  dsimp only
  rw [if_neg (show ¬((0 == s.data.length + 11) = true) from by
    simp only [beq_iff_eq]
    omega)]
  rw [hdrop, htake, hsd]
  rw [pstrip_tagged_content hpre hsuf hhead hc hlast he]
  rw [splitNl_pref (pre ++ pstrip s.data) (by decide)]
  dsimp only
  rw [if_pos (show pstrip "python".data ∈ langTags from by decide)]
  rw [joinNl_splitNl]
  rw [pstrip_pws_pref hpre hhead hc hlast he]
  rfl

theorem matchPat_some_append {x m : List Char} (h : matchPat x = some m)
    (s : List Char) : matchPat (x ++ s) = some m := by
  unfold matchPat at h
  dsimp only at h
  split_ifs at h with g1 g2 g3 g4
  have hx : x = '[' :: x.tail := cons_of_head? (by simpa using g1)
  have hd1 : x.tail.dropWhile pws
      = '{' :: (x.tail.dropWhile pws).tail := cons_of_head? (by simpa using g2)
  have hd2 : (x.tail.dropWhile pws).tail.dropWhile (fun c => !(c == '}'))
      = '}' :: ((x.tail.dropWhile pws).tail.dropWhile (fun c => !(c == '}'))).tail :=
    cons_of_head? (by simpa using g3)
  have hd3 : ((x.tail.dropWhile pws).tail.dropWhile
        (fun c => !(c == '}'))).tail.dropWhile pws
      = ']' :: (((x.tail.dropWhile pws).tail.dropWhile
        (fun c => !(c == '}'))).tail.dropWhile pws).tail :=
    cons_of_head? (by simpa using g4)
  have hxs : x ++ s = '[' :: (x.tail ++ s) := by
    conv_lhs => rw [hx]
    rfl
  rw [hxs]
  unfold matchPat
  dsimp only
  rw [if_pos (by simp)]
  simp only [List.tail_cons]
  rw [dropWhile_append_pos hd1 s, takeWhile_append_pos hd1 s]
  rw [if_pos (by simp)]
  simp only [List.tail_cons]
  rw [dropWhile_append_pos hd2 s, takeWhile_append_pos hd2 s]
  rw [if_pos (by simp)]
  simp only [List.tail_cons]
  rw [dropWhile_append_pos hd3 s, takeWhile_append_pos hd3 s]
  rw [if_pos (by simp)]
  exact h

theorem matchPat_none_append {x : List Char} (h : matchPat x = none) :
    matchPat (x ++ "\n```".data) = none := by
  cases hx : x with
  | nil => rfl
  | cons c xt =>
    rw [← hx]
    by_cases g1 : (x.head? == some ('[' : Char)) = true
    · have hx1 : x = '[' :: x.tail := cons_of_head? (by simpa using g1)
      have hxs : x ++ "\n```".data = '[' :: (x.tail ++ "\n```".data) := by
        conv_lhs => rw [hx1]
        rfl
      rw [hxs]
      unfold matchPat
      dsimp only
      rw [if_pos (by simp)]
      simp only [List.tail_cons]
      unfold matchPat at h
      dsimp only at h
      rw [if_pos g1] at h
      cases hd1 : x.tail.dropWhile pws with
      | nil =>
        rw [dropWhile_append_nil hd1]
        rw [show ("\n```".data : List Char).dropWhile pws = "```".data from by decide]
        rw [if_neg (by decide)]
      | cons c1 d1t =>
        rw [dropWhile_append_pos hd1]
        by_cases g2 : (c1 == ('{' : Char)) = true
        · have hc1 : c1 = '{' := by simpa using g2
          subst hc1
          rw [hd1] at h
          rw [if_pos (by simp)] at h
          simp only [List.tail_cons] at h
          rw [if_pos (by simp)]
          simp only [List.tail_cons]
          cases hd2 : d1t.dropWhile (fun c => !(c == '}')) with
          | nil =>
            rw [dropWhile_append_nil hd2]
            rw [show ("\n```".data : List Char).dropWhile (fun c => !(c == '}'))
                = [] from by decide]
            rw [if_neg (by decide)]
          | cons c2 d2t =>
            have hc2 : c2 = '}' := by
              have := dropWhile_head_neg hd2
              simpa using this
            subst hc2
            rw [dropWhile_append_pos hd2]
            rw [hd2] at h
            rw [if_pos (by simp)] at h
            simp only [List.tail_cons] at h
            rw [if_pos (by simp)]
            simp only [List.tail_cons]
            cases hd3 : d2t.dropWhile pws with
            | nil =>
              rw [dropWhile_append_nil hd3]
              rw [show ("\n```".data : List Char).dropWhile pws
                  = "```".data from by decide]
              rw [if_neg (by decide)]
            | cons c3 d3t =>
              rw [dropWhile_append_pos hd3]
              by_cases g4 : (c3 == (']' : Char)) = true
              · exfalso
                rw [hd3] at h
                rw [if_pos (by simpa using g4)] at h
                cases h
              · rw [if_neg (by simpa using g4)]
        · rw [hd1] at h
          rw [if_neg (by simpa using g2)]
    · rw [hx] at g1 ⊢
      simp only [List.head?] at g1
      have hc : (c == ('[' : Char)) = false := by
        cases hcb : (c == ('[' : Char)) with
        | false => rfl
        | true =>
          exfalso
          apply g1
          have hcc : c = '[' := by simpa using hcb
          rw [hcc]
          simp
      rw [List.cons_append]
      exact matchPat_none_head _ hc

theorem ffp_append_suffix : ∀ x : List Char, ffp (x ++ "\n```".data) = ffp x := by
  intro x
  induction x with
  | nil => rfl
  | cons c xt ih =>
    rw [List.cons_append]
    show ffp (c :: (xt ++ "\n```".data)) = ffp (c :: xt)
    rw [ffp, ffp]
    cases hm : matchPat (c :: xt) with
    | some m =>
      have hap := matchPat_some_append hm "\n```".data
      rw [List.cons_append] at hap
      rw [hap]
    | none =>
      have hap := matchPat_none_append hm
      rw [List.cons_append] at hap
      rw [hap]
      dsimp only
      exact ih

theorem ffp_front_skip {a : List Char} (x : List Char)
    (h : ∀ c ∈ a, (c == '[') = false) : ffp (a ++ x) = ffp x := by
  induction a with
  | nil => rfl
  | cons c a2 ih =>
    rw [List.cons_append]
    show ffp (c :: (a2 ++ x)) = ffp x
    rw [ffp, matchPat_none_head _ (h c (by simp))]
    dsimp only
    exact ih (fun d hd => h d (by simp [hd]))

theorem ffp_wrap (s : String) : ffp (wrapFenced s).data = ffp s.data := by
  rw [wrap_data, List.append_assoc]
  rw [ffp_front_skip _ (by decide)]
  exact ffp_append_suffix s.data

theorem rescue_wrap (s : String) :
    rescueParse (wrapFenced s) = rescueParse s := by
  unfold rescueParse
  rw [ffp_wrap]

/-- Claim C6 (amended): for every text whose stripped form does not itself
begin with a triple-backtick fence, if the parse chain succeeds with result
`v`, then wrapping the text in a fenced block with a `python` language tag
and re-running the chain yields the identical result `v`.  (Without the
no-leading-fence restriction the claim fails, see the counterexample.) -/
theorem claim_C6_fenced_wrap_amended (txt : String) (v : JVal)
    (hfence : fenceMarker.isPrefixOf (pstrip txt.data) = false)
    (hchain : parseChain txt = some v) :
    parseChain (wrapFenced txt) = some v := by
  have hne : pstrip txt.data ≠ [] := parseChain_pstrip_ne_nil hchain
  have hcw : cleanText (wrapFenced txt) = pstripStr txt := cleanText_wrap txt hne
  have hct : cleanText txt = pstripStr txt := by
    show String.mk (cleanList txt.data) = pstripStr txt
    rw [cleanList_no_fence hfence]
    rfl
  have h3w : jsonLoads (wrapFenced txt) = none := loadsCore_wrap_none false txt
  have h4w : astLiteralEval (wrapFenced txt) = none := loadsCore_wrap_none true txt
  have h5w : rescueParse (wrapFenced txt) = rescueParse txt := rescue_wrap txt
  unfold parseChain at hchain ⊢
  dsimp only at hchain ⊢
  rw [hcw, h3w, h4w, h5w]
  rw [hct] at hchain
  cases h1 : jsonLoads (pstripStr txt) with
  | some w =>
    rw [h1] at hchain
    exact hchain
  | none =>
    rw [h1] at hchain
    dsimp only at hchain ⊢
    cases h2 : astLiteralEval (pstripStr txt) with
    | some w =>
      rw [h2] at hchain
      exact hchain
    | none =>
      rw [h2] at hchain
      dsimp only at hchain ⊢
      cases h3 : jsonLoads txt with
      | some w =>
        exfalso
        have h3c : loadsCore false txt.data = some w := h3
        have hp : jsonLoads (pstripStr txt) = some w := (loadsCore_pstrip h3c).2
        rw [h1] at hp
        cases hp
      | none =>
        rw [h3] at hchain
        dsimp only at hchain
        cases h4 : astLiteralEval txt with
        | some w =>
          exfalso
          have h4c : loadsCore true txt.data = some w := h4
          have hp : astLiteralEval (pstripStr txt) = some w := (loadsCore_pstrip h4c).2
          rw [h2] at hp
          cases hp
        | none =>
          rw [h4] at hchain
          dsimp only at hchain
          exact hchain

/-- Claim C6 counterexample: a text that parses successfully (through the
cleaner, because it is itself a fenced block) but whose fenced wrapping
makes the whole chain fail: the cleaner of the wrapping only removes the
outermost fences and the tag line, leaving the inner fence in place. -/
theorem claim_C6_fenced_wrap_counterexample :
    parseChain "```\n[\x7b\"a\": 1\x7d, \x7b\"b\": 2\x7d]\n```"
      = some (.arr [.obj [("a", .num false ['1'] none)],
                    .obj [("b", .num false ['2'] none)]]) ∧
    parseChain (wrapFenced "```\n[\x7b\"a\": 1\x7d, \x7b\"b\": 2\x7d]\n```")
      = none :=
  ⟨rfl, rfl⟩

theorem claim_C6_fenced_wrap_amended_witness :
    fenceMarker.isPrefixOf (pstrip ("[\x7b\"a\": 1\x7d]" : String).data) = false ∧
    parseChain "[\x7b\"a\": 1\x7d]"
      = some (.arr [.obj [("a", .num false ['1'] none)]]) ∧
    parseChain (wrapFenced "[\x7b\"a\": 1\x7d]")
      = some (.arr [.obj [("a", .num false ['1'] none)]]) :=
  ⟨rfl, rfl,
   claim_C6_fenced_wrap_amended "[\x7b\"a\": 1\x7d]"
     (.arr [.obj [("a", .num false ['1'] none)]]) rfl rfl⟩

/-! ## Extractor facts (claim C5) -/

theorem tryText_of_fail {r : GResponse} (h : levelFailText r = true) :
    tryTextAttr r = .ok none := by
  unfold levelFailText at h
  unfold tryTextAttr
  cases hr : r.text with
  | present s =>
    rw [hr] at h
    dsimp only at h ⊢
    rw [h]
    rfl
  | absent => rfl
  | raising => rfl

theorem tryParts_of_fail {r : GResponse} (h : levelFailParts r = true) :
    tryPartsAttr r = .ok none := by
  unfold levelFailParts at h
  unfold tryPartsAttr
  cases hr : r.parts with
  | present it =>
    cases it with
    | ok l =>
      rw [hr] at h
      dsimp only at h ⊢
      have hl : partTexts l = [] := by simpa using h
      rw [hl]
    | bad =>
      rw [hr] at h
      dsimp only at h
      cases h
  | absent => rfl
  | raising => rfl

theorem candScan_of_fail {cs : List GCandidate} (h : cs.all candFail = true) :
    candScan cs = .ok none := by
  induction cs with
  | nil => rfl
  | cons c rest ih =>
    rw [List.all_cons] at h
    obtain ⟨hc, hrest⟩ := Bool.and_eq_true_iff.1 h
    unfold candFail at hc
    unfold candScan
    cases hco : c.content with
    | present co =>
      rw [hco] at hc
      dsimp only at hc ⊢
      cases hcp : co.parts with
      | present it =>
        cases it with
        | ok pl =>
          rw [hcp] at hc
          dsimp only at hc ⊢
          have hl : partTexts pl = [] := by simpa using hc
          rw [hl]
          exact ih hrest
        | bad =>
          rw [hcp] at hc
          dsimp only at hc
          cases hc
      | absent => exact ih hrest
      | raising => exact ih hrest
    | absent => exact ih hrest
    | raising => exact ih hrest

theorem tryCands_of_fail {r : GResponse} (h : levelFailCands r = true) :
    tryCandidatesAttr r = .ok none := by
  unfold levelFailCands at h
  unfold tryCandidatesAttr
  cases hr : r.candidates with
  | present it =>
    cases it with
    | ok cs =>
      rw [hr] at h
      dsimp only at h ⊢
      exact candScan_of_fail h
    | bad =>
      rw [hr] at h
      dsimp only at h
      cases h
  | absent => rfl
  | raising => rfl

theorem tryContent_of_fail {r : GResponse} (h : levelFailContent r = true) :
    tryContentAttr r = .ok none := by
  unfold levelFailContent at h
  unfold tryContentAttr
  cases hr : r.content with
  | present co =>
    rw [hr] at h
    dsimp only at h ⊢
    cases hcp : co.parts with
    | present it =>
      cases it with
      | ok pl =>
        rw [hcp] at h
        dsimp only at h ⊢
        have hl : partTexts pl = [] := by simpa using h
        rw [hl]
      | bad =>
        rw [hcp] at h
        dsimp only at h
        cases h
    | absent => rfl
    | raising => rfl
  | absent => rfl
  | raising => rfl

theorem tryStr_of_fail {r : GResponse} (h : levelFailStr r = true) :
    tryStrAttr r = .ok none := by
  unfold levelFailStr at h
  unfold tryStrAttr
  cases hr : r.strRep with
  | some s =>
    rw [hr] at h
    dsimp only at h ⊢
    rcases Bool.or_eq_true_iff.1 h with h1 | h1
    · have hs : s = "" := by simpa using h1
      subst hs
      rfl
    · have hs : s = r.typeRep := by simpa using h1
      simp [hs]
  | none =>
    rw [hr] at h
    dsimp only at h
    cases h

/-- Claim C5 counterexample: an internal error while probing the `parts`
shape (level 2) does not make the extractor fall through to the
`candidates` shape (level 3), which here would yield `"hi"`; instead the
single outer `except` absorbs it and the extractor returns `""`. -/
theorem claim_C5_error_no_fallthrough_counterexample :
    extractTextFromGeminiResponse badPartsResponse = "" ∧
    tryPartsAttr badPartsResponse = .error () ∧
    tryCandidatesAttr badPartsResponse = .ok (some "hi") :=
  ⟨rfl, rfl, rfl⟩

/-- Claim C5 (amended): the extractor is total and returns the empty string
both when an internal error is raised anywhere while probing (the single
`except` absorbs it, skipping all remaining levels) and when every level
fails to produce text. -/
theorem claim_C5_extractor_empty_amended (r : GResponse)
    (h : extractCore r = .error () ∨ allLevelsFail r = true) :
    extractTextFromGeminiResponse r = "" := by
  rcases h with h | h
  · unfold extractTextFromGeminiResponse
    rw [h]
  · have h' := h
    unfold allLevelsFail at h'
    obtain ⟨h14, h5⟩ := Bool.and_eq_true_iff.1 h'
    obtain ⟨h13, h4⟩ := Bool.and_eq_true_iff.1 h14
    obtain ⟨h12, h3⟩ := Bool.and_eq_true_iff.1 h13
    obtain ⟨h1, h2⟩ := Bool.and_eq_true_iff.1 h12
    unfold extractTextFromGeminiResponse extractCore
    rw [tryText_of_fail h1, tryParts_of_fail h2, tryCands_of_fail h3,
      tryContent_of_fail h4, tryStr_of_fail h5]

theorem claim_C5_extractor_empty_amended_witness :
    allLevelsFail ⟨.absent, .absent, .absent, .absent, some "t", "t"⟩ = true ∧
    extractTextFromGeminiResponse ⟨.absent, .absent, .absent, .absent, some "t", "t"⟩
      = "" :=
  ⟨rfl, claim_C5_extractor_empty_amended _ (Or.inr rfl)⟩
